import Mathlib

/-!
# FilesystemStore (lib/stores/filesystem.js)

A shallow embedding of the filesystem-backed object store: the key codec, the
path resolver, the listing engine with its directory-pruning predicate, ranged
reads, multipart assembly and delete-with-cleanup, followed by the properties
established about them.

JavaScript strings are modelled as lists of characters, one character per
UTF-16 code unit (keys of the Basic Multilingual Plane), compared by numeric
character value as JavaScript compares code units.
-/

namespace S3rver

/-! ## JavaScript strings -/

/-- A JavaScript string: its sequence of code units. -/
abbrev Str := List Char

/-- The relational comparison `a < b` of two JavaScript strings. -/
def jsLt : Str → Str → Bool
  | [], [] => false
  | [], _ :: _ => true
  | _ :: _, [] => false
  | a :: as, b :: bs =>
    if a.toNat < b.toNat then true
    else if b.toNat < a.toNat then false
    else jsLt as bs

/-- The relational comparison `a <= b` of two JavaScript strings. -/
def jsLe (a b : Str) : Bool := !jsLt b a

/-- The method `s.startsWith(pat)`. -/
def startsWith (s pat : Str) : Bool := pat.isPrefixOf s

/-- The method `s.endsWith(pat)`. -/
def endsWith (s pat : Str) : Bool := pat.isSuffixOf s

/-- The method `s.indexOf(pat)`; `none` stands for `-1`. -/
def indexOf : Str → Str → Option Nat
  | [], pat => if pat.isEmpty then some 0 else none
  | c :: cs, pat =>
    if pat.isPrefixOf (c :: cs) then some 0
    else (indexOf cs pat).map (· + 1)

/-- Resolution of one `slice` argument against the length of the string. -/
def sliceIdx (len : Nat) (i : Int) : Nat :=
  if i < 0 then (len + i).toNat else min i.toNat len

/-- The method `s.slice(start, stop)`, negative arguments counting from the end. -/
def slice (s : Str) (start stop : Int) : Str :=
  (s.take (sliceIdx s.length stop)).drop (sliceIdx s.length start)

/-- The method `s.slice(start)`. -/
def sliceFrom (s : Str) (start : Int) : Str :=
  slice s start s.length

/-- The method `s.split('/')`. -/
def splitSlash : Str → List Str
  | [] => [[]]
  | c :: cs =>
    if c = '/' then [] :: splitSlash cs
    else
      match splitSlash cs with
      | [] => [[c]]
      | s :: ss => (c :: s) :: ss

/-- The method `segs.join('/')`. -/
def joinSlash : List Str → Str
  | [] => []
  | [s] => s
  | s :: t :: ss => s ++ '/' :: joinSlash (t :: ss)

/-- The pattern `S3RVER_SUFFIX = '%s._S3rver_%s'` applied by `format`. -/
def formatSuffix (name resource : Str) : Str :=
  name ++ "._S3rver_".toList ++ resource

/-! ## KeyPathCodec -/

/-- The character class `[<>:"\\|?*]` escaped by `encodeKeyPath`. -/
def reservedChars : List Char := ['<', '>', ':', '"', '\\', '|', '?', '*']

/-- One lower-case hexadecimal digit. -/
def hexDigit (n : Nat) : Char :=
  if n < 10 then Char.ofNat (48 + n) else Char.ofNat (87 + n)

/-- The value of a hexadecimal digit, if it is one. -/
def hexVal (c : Char) : Option Nat :=
  if 48 ≤ c.toNat ∧ c.toNat ≤ 57 then some (c.toNat - 48)
  else if 97 ≤ c.toNat ∧ c.toNat ≤ 102 then some (c.toNat - 87)
  else if 65 ≤ c.toNat ∧ c.toNat ≤ 70 then some (c.toNat - 55)
  else none

/-- The replacement `'&' + Buffer.from(ch, 'utf8').toString('hex')` for a
reserved character (all of them are single-byte). -/
def escapeChar (ch : Char) : Str :=
  ['&', hexDigit (ch.toNat / 16), hexDigit (ch.toNat % 16)]

/-- The replacement `Buffer.from(ent.slice(1), 'hex').toString()` for the two
characters following the marker: a valid pair is one byte, decoded as UTF-8
(a byte of 0x80 and above is not valid on its own and becomes U+FFFD); an
invalid pair gives the empty buffer. -/
def unescapePair (a b : Char) : Str :=
  match hexVal a, hexVal b with
  | some h, some l =>
    if 16 * h + l < 128 then [Char.ofNat (16 * h + l)] else [Char.ofNat 0xFFFD]
  | _, _ => []

/-- What `.` matches in a regular expression: anything but a line terminator. -/
def matchesDot (c : Char) : Bool :=
  !(c.toNat = 0x0A ∨ c.toNat = 0x0D ∨ c.toNat = 0x2028 ∨ c.toNat = 0x2029)

/-- A match of the pattern `/&../` at the start of a string: the marker and two
characters that `.` accepts; the result is the replacement for the match. -/
def entityAt : Str → Option Str
  | c :: a :: b :: _ =>
    if c = '&' && matchesDot a && matchesDot b then some (unescapePair a b) else none
  | _ => none

/-- The scan of `replace` with a global pattern: `skip` counts the characters
still covered by the previous match. -/
def replaceFrom : Nat → Str → Str
  | _, [] => []
  | skip + 1, _ :: rest => replaceFrom skip rest
  | 0, c :: rest =>
    match entityAt (c :: rest) with
    | some replacement => replacement ++ replaceFrom 2 rest
    | none => c :: replaceFrom 0 rest

/-- The global replacement `keyPath.replace(/&../g, ...)`. -/
def replaceEntities (keyPath : Str) : Str :=
  replaceFrom 0 keyPath

/-- The static method `decodeKeyPath`; `win32` is `process.platform === 'win32'`. -/
def decodeKeyPath (win32 : Bool) (keyPath : Str) : Str :=
  if win32 then replaceEntities keyPath else keyPath

/-- The static method `encodeKeyPath`; `win32` is `process.platform === 'win32'`. -/
def encodeKeyPath (win32 : Bool) (key : Str) : Str :=
  if win32 then key.flatMap (fun ch => if ch ∈ reservedChars then escapeChar ch else [ch])
  else key

/-! ## PathResolver -/

/-- One step of the segment loop of `path.posix.normalize`: empty and `.`
segments are dropped, `..` removes the previous segment (or is kept above the
start of a relative path), anything else is appended. -/
def normStep (allowAboveRoot : Bool) (res : List Str) (seg : Str) : List Str :=
  if seg = [] ∨ seg = ['.'] then res
  else if seg = ['.', '.'] then
    if res ≠ [] ∧ res.getLast? ≠ some ['.', '.'] then res.dropLast
    else if allowAboveRoot then res ++ [seg] else res
  else res ++ [seg]

/-- The segments kept by `path.posix.normalize`. -/
def normalizeSegs (allowAboveRoot : Bool) (path : Str) : List Str :=
  (splitSlash path).foldl (normStep allowAboveRoot) []

/-- The library function `path.posix.normalize`. -/
def posixNormalize (path : Str) : Str :=
  if path = [] then ['.']
  else
    let isAbsolute := path.head? = some '/'
    let trailing := path.getLast? = some '/'
    let body := joinSlash (normalizeSegs (!decide isAbsolute) path)
    if body = [] then
      if isAbsolute then ['/'] else if trailing then ['.', '/'] else ['.']
    else
      (if isAbsolute then ['/'] else []) ++ body ++ (if trailing then ['/'] else [])

/-- The library function `path.join` (POSIX flavour): the non-empty arguments
joined by `/`, then normalized. -/
def pathJoin (args : List Str) : Str :=
  let joined := joinSlash (args.filter (fun a => !a.isEmpty))
  if joined = [] then ['.'] else posixNormalize joined

/-- The helper `getBucketPath`. -/
def getBucketPath (rootDirectory bucketName : Str) : Str :=
  pathJoin [rootDirectory, bucketName]

/-- The helper `getResourcePath`: all segments of the encoded key but the last
are directories, the last is combined with the resource kind. -/
def getResourcePath (win32 : Bool) (rootDirectory bucket key resource : Str) : Str :=
  let parts := splitSlash (encodeKeyPath win32 key)
  let suffix := formatSuffix (parts.getLastD []) resource
  pathJoin ([rootDirectory, bucket] ++ parts.dropLast ++ [suffix])

/-- The resource kinds of the three files backing an object. -/
def objectResources : List Str :=
  ["object".toList, "object.md5".toList, "metadata.json".toList]

/-- The directories a path nests under: every `d` with `path = d + '/' + rest`. -/
def ancestorDirs : Str → List Str
  | [] => []
  | c :: cs => (if c = '/' then [[]] else []) ++ (ancestorDirs cs).map (c :: ·)

/-- The segments of a key as `getResourcePath` sees them. -/
def keyParts (win32 : Bool) (key : Str) : List Str :=
  splitSlash (encodeKeyPath win32 key)

/-- A path segment that `path.join` leaves alone: not empty, not `.`, not `..`. -/
def plainSegment (seg : Str) : Bool :=
  !(seg = [] ∨ seg = ['.'] ∨ seg = ['.', '.'])

/-- A key whose `/`-separated segments are all non-empty and none is `.` or `..`. -/
def WellFormedKey (key : Str) : Prop :=
  ∀ seg ∈ splitSlash key, plainSegment seg = true

instance (key : Str) : Decidable (WellFormedKey key) := by
  unfold WellFormedKey; infer_instance

/-- A bucket directory below which paths can be extended by appending
`'/' + name`: it is not the bare current directory and has no trailing
separator (so it is not the filesystem root either). -/
def ProperBase (rootDirectory bucket : Str) : Prop :=
  getBucketPath rootDirectory bucket ≠ ['.'] ∧
    (getBucketPath rootDirectory bucket).getLast? ≠ some '/'

instance (rootDirectory bucket : Str) : Decidable (ProperBase rootDirectory bucket) := by
  unfold ProperBase; infer_instance

/-! ## DirectoryWalker -/

/-- An entry of a directory: a file, or a directory with its entries in the
order `readdir` reports them. -/
inductive Entry where
  | file (name : Str)
  | dir (name : Str) (children : List Entry)

/-- The name of a directory entry. -/
def Entry.name : Entry → Str
  | .file n => n
  | .dir n _ => n

mutual
/-- Modelled from the spec: the generator `walk` of lib/utils is not among the
sources. It is the lazy, depth-first, pre-order sequence of the file paths
under a directory; before descending into a sub-directory the caller's
predicate is asked, and a rejected sub-tree is skipped entirely. -/
def walkEntry (recurseFilter : Str → Bool) (dir : Str) : Entry → List Str
  | .file n => [dir ++ '/' :: n]
  | .dir n cs =>
    if recurseFilter (dir ++ '/' :: n) then walkList recurseFilter (dir ++ '/' :: n) cs
    else []
/-- Modelled from the spec: `walk` over the entries of one directory, in order. -/
def walkList (recurseFilter : Str → Bool) (dir : Str) : List Entry → List Str
  | [] => []
  | e :: es => walkEntry recurseFilter dir e ++ walkList recurseFilter dir es
end

/-- Modelled from the spec: the call `walk(dir, recurseFilter)`, with the
entries of `dir` given. -/
abbrev walk (dir : Str) (recurseFilter : Str → Bool) (entries : List Entry) : List Str :=
  walkList recurseFilter dir entries

/-- Every file path below a directory (the walk that prunes nothing). -/
def allFiles (dir : Str) (entries : List Entry) : List Str :=
  walk dir (fun _ => true) entries

mutual
/-- An entry whose directories list their entries in strictly ascending name order. -/
def entryAscending : Entry → Bool
  | .file _ => true
  | .dir _ cs => entriesAscending cs
/-- Entries listed in strictly ascending name order, recursively. -/
def entriesAscending : List Entry → Bool
  | [] => true
  | e :: es =>
    entryAscending e && (match es with
      | [] => true
      | e2 :: _ => jsLt e.name e2.name) && entriesAscending es
end

/-! ## ListingEngine -/

/-- The options of `listObjects`; `maxKeys = none` is the default `Infinity`. -/
structure ListOptions where
  delimiter : Str := []
  startAfter : Str := []
  pfx : Str := []
  maxKeys : Option Nat := none

/-- The constant `objectSuffix = format(S3RVER_SUFFIX, '', 'object')`. -/
def objectSuffix : Str := formatSuffix [] "object".toList

/-- The predicate `listObjects` hands to `walk`: `false` prunes the directory. -/
def shouldDescend (win32 : Bool) (bucketPath : Str) (o : ListOptions) (dirPath : Str) : Bool :=
  let delimiterEnc := encodeKeyPath win32 o.delimiter
  let startAfterPath := joinSlash [bucketPath, encodeKeyPath win32 o.startAfter]
  let prefixPath := joinSlash [bucketPath, encodeKeyPath win32 o.pfx]
  if jsLt dirPath startAfterPath && (indexOf startAfterPath dirPath).isNone then false
  else if startsWith dirPath prefixPath then
    if !delimiterEnc.isEmpty &&
        (indexOf (sliceFrom dirPath prefixPath.length) delimiterEnc).isSome then false
    else true
  else if !startsWith prefixPath dirPath then false
  else true

/-- The mutable state of the listing loop: `keys`, `commonPrefixes` (a `Set`,
kept in insertion order) and `isTruncated`. -/
structure Listing where
  keys : List Str := []
  commonPrefixes : List Str := []
  isTruncated : Bool := false
deriving DecidableEq

/-- The method `Set.prototype.add`. -/
def setAdd (s : List Str) (x : Str) : List Str :=
  if x ∈ s then s else s ++ [x]

/-- The test `keys.length < maxKeys`. -/
def belowMax (n : Nat) : Option Nat → Bool
  | none => true
  | some m => n < m

/-- The key a walked path decodes to:
`decodeKeyPath(keyPath.slice(bucketPath.length + 1, -objectSuffix.length))`. -/
def keyOfPath (win32 : Bool) (bucketPath keyPath : Str) : Str :=
  decodeKeyPath win32 (slice keyPath (bucketPath.length + 1) (-(objectSuffix.length : Int)))

/-- The grouping test of the loop: the index of the delimiter in the key after
the prefix, when a delimiter is set and occurs there. -/
def delimiterIndex (o : ListOptions) (key : Str) : Option Nat :=
  if !o.delimiter.isEmpty then indexOf (sliceFrom key o.pfx.length) o.delimiter else none

/-- The loop `for (const keyPath of it)` of `listObjects`, with its `continue`
and `break` exits. -/
def listLoop (win32 : Bool) (bucketPath : Str) (o : ListOptions) : List Str → Listing → Listing
  | [], st => st
  | keyPath :: rest, st =>
    if !endsWith keyPath objectSuffix then listLoop win32 bucketPath o rest st
    else
      let key := keyOfPath win32 bucketPath keyPath
      if jsLe key o.startAfter || !startsWith key o.pfx then
        listLoop win32 bucketPath o rest st
      else
        match delimiterIndex o key with
        | some idx =>
          listLoop win32 bucketPath o rest
            { st with commonPrefixes :=
                setAdd st.commonPrefixes (slice key 0 (o.pfx.length + idx + 1 : Nat)) }
        | none =>
          if belowMax st.keys.length o.maxKeys then
            listLoop win32 bucketPath o rest { st with keys := st.keys ++ [key] }
          else { st with isTruncated := true }

/-- Insertion of a string before the first greater one. -/
def insertSorted (x : Str) : List Str → List Str
  | [] => [x]
  | y :: ys => if jsLt x y then x :: y :: ys else y :: insertSorted x ys

/-- The method `Array.prototype.sort()` on strings. -/
def jsSort (l : List Str) : List Str :=
  l.foldr insertSorted []

/-- The value `listObjects` resolves to; an object is its key and its metadata. -/
structure ListResult (μ : Type) where
  objects : List (Str × μ)
  commonPrefixes : List Str
  isTruncated : Bool

/-- The pairs `zip(keys, metadataArr)` whose metadata was found. -/
def withMetadata {μ : Type} (getMetadata : Str → Option μ) (keys : List Str) : List (Str × μ) :=
  keys.filterMap (fun key => (getMetadata key).map (fun m => (key, m)))

/-- The walk `listObjects` iterates over. -/
def walkBucket (win32 : Bool) (bucketPath : Str) (tree : List Entry) (o : ListOptions) : List Str :=
  walk bucketPath (shouldDescend win32 bucketPath o) tree

/-- The loop of `listObjects` run over the pruned walk of the bucket directory. -/
def listKeys (win32 : Bool) (bucketPath : Str) (tree : List Entry) (o : ListOptions) : Listing :=
  listLoop win32 bucketPath o (walkBucket win32 bucketPath tree o) {}

/-- The method `listObjects`: `tree` is the content of the bucket directory and
`getMetadata key` is `none` when the metadata of `key` is not found. -/
def listObjects {μ : Type} (win32 : Bool) (rootDirectory bucket : Str) (tree : List Entry)
    (getMetadata : Str → Option μ) (o : ListOptions) : ListResult μ :=
  let st := listKeys win32 (getBucketPath rootDirectory bucket) tree o
  { objects := withMetadata getMetadata st.keys
    commonPrefixes := jsSort st.commonPrefixes
    isTruncated := st.isTruncated }

/-- The keys of the objects `listObjects` returns. -/
def listedKeys {μ : Type} (r : ListResult μ) : List Str :=
  r.objects.map Prod.fst

/-- The key a walked path is accepted with: it has the object suffix, its key
is greater than `startAfter`, starts with the prefix and is not grouped. -/
def acceptedKey (win32 : Bool) (bucketPath : Str) (o : ListOptions) (keyPath : Str) : Option Str :=
  let key := keyOfPath win32 bucketPath keyPath
  if endsWith keyPath objectSuffix && jsLt o.startAfter key && startsWith key o.pfx
      && (delimiterIndex o key).isNone then some key
  else none

/-- The sequence of accepted keys of a sequence of walked paths. -/
def acceptedKeys (win32 : Bool) (bucketPath : Str) (o : ListOptions) (paths : List Str) : List Str :=
  paths.filterMap (acceptedKey win32 bucketPath o)

/-- The content files of the stored keys are exactly the object files of the
bucket directory. -/
def Stores (rootDirectory bucket : Str) (tree : List Entry) (stored : List Str) : Prop :=
  (∀ p ∈ (allFiles (getBucketPath rootDirectory bucket) tree).filter (endsWith · objectSuffix),
      p ∈ stored.map (getResourcePath false rootDirectory bucket · "object".toList)) ∧
  (∀ p ∈ stored.map (getResourcePath false rootDirectory bucket · "object".toList),
      p ∈ allFiles (getBucketPath rootDirectory bucket) tree)

instance (rootDirectory bucket : Str) (tree : List Entry) (stored : List Str) :
    Decidable (Stores rootDirectory bucket tree stored) := by
  unfold Stores; infer_instance

/-- A key that a listing with these options has to return. -/
def Matches (o : ListOptions) (k : Str) : Prop :=
  jsLt o.startAfter k = true ∧ startsWith k o.pfx = true ∧
    (o.delimiter = [] ∨ indexOf (k.drop o.pfx.length) o.delimiter = none)

instance (o : ListOptions) (k : Str) : Decidable (Matches o k) := by
  unfold Matches; infer_instance

/-! ## Ranged reads -/

/-- The content of a file or of a buffer. -/
abbrev Bytes := List Nat

/-- The `options` of `getObject`; a field is `none` when it is `undefined`. -/
structure GetOptions where
  start : Option Int := none
  end_ : Option Int := none

/-- The object `range` of `getObject`. -/
structure Range where
  start : Int
  end_ : Int
deriving DecidableEq

/-- The object `getObject` resolves to: its content (`none` for `null`) and the
range attached to it, if any. -/
structure FetchedObject where
  content : Option Bytes
  range : Option Range
deriving DecidableEq

/-- The truthiness of an optional number: defined and not zero. -/
def truthy (x : Option Int) : Bool :=
  match x with
  | some n => n != 0
  | none => false

/-- The expression `(options && options.start) || 0`. -/
def rangeStart (options : Option GetOptions) : Int :=
  match options.bind (·.start) with
  | some n => if n != 0 then n else 0
  | none => 0

/-- The expression `Math.min((options && options.end) || Infinity, lastByte)`. -/
def rangeEnd (options : Option GetOptions) (lastByte : Int) : Int :=
  match options.bind (·.end_) with
  | some n => if n != 0 then min n lastByte else lastByte
  | none => lastByte

/-- The test `options && (options.start !== undefined || options.end)`. -/
def rangeRequested (options : Option GetOptions) : Bool :=
  match options with
  | some o => o.start.isSome || truthy o.end_
  | none => false

/-- The method `getObject`: `contentLength` is the `content-length` of the
metadata (`none` when the metadata is not found) and `blob` the stored content. -/
def getObject (contentLength : Option Nat) (blob : Bytes) (options : Option GetOptions) :
    Option FetchedObject :=
  match contentLength with
  | none => none
  | some len =>
    let lastByte : Int := max 0 ((len : Int) - 1)
    let range : Range := { start := rangeStart options, end_ := rangeEnd options lastByte }
    if range.start < 0 || min range.end_ lastByte < range.start then
      some { content := none, range := if rangeRequested options then some range else none }
    else
      some { content := some blob, range := if rangeRequested options then some range else none }

/-! ## Content writing and multipart assembly -/

/-- A readable stream: the data it has not delivered yet. -/
structure Readable where
  unread : Bytes
deriving DecidableEq

/-- The content of an object: a buffer, or a stream. -/
inductive Content where
  | buffer (data : Bytes)
  | stream (s : Readable)

/-- Reading a stream to its end: every chunk is delivered once, and the stream
is left with nothing to deliver. -/
def Readable.readAll (s : Readable) : Bytes × Readable :=
  (s.unread, { unread := [] })

/-- What `putContent` does and resolves to: the data put to the drive, the data
written to the local file, and the pair `[size, md5]`. -/
structure PutOutcome where
  driveData : Bytes
  fileData : Bytes
  size : Nat
  md5 : Str
deriving DecidableEq

/-- The method `putContent`. A buffer is put to the drive and written to the
file. A stream is first read to its end into `result`, which is put to the
drive; then the same stream is piped through the digest transform into the
file, `totalLength` adding up the chunks that pass. -/
def putContent (md5 : Bytes → Str) (content : Content) : PutOutcome :=
  match content with
  | .buffer data =>
    { driveData := data, fileData := data, size := data.length, md5 := md5 data }
  | .stream s =>
    let (result, s1) := s.readAll
    let (chunks, _) := s1.readAll
    { driveData := result, fileData := chunks, size := chunks.length, md5 := md5 chunks }

/-- The method `putObject`, as far as the content goes: the path written and
the outcome of `putContent`, whose `size` and `md5` are returned. -/
def putObject (md5 : Bytes → Str) (win32 : Bool) (rootDirectory bucket key : Str)
    (content : Content) : Str × PutOutcome :=
  (getResourcePath win32 rootDirectory bucket key "object".toList, putContent md5 content)

/-- An element of `parts`: its part number. -/
structure Part where
  number : Nat
deriving DecidableEq

/-- The staging directory of an upload: the `key` file and the part files,
each under the name `partNumber.toString()`. -/
structure Upload where
  key : Str
  files : List (Str × Bytes)

/-- The lodash call `sortBy(parts, (part) => part.number)`: a stable ascending sort. -/
def sortBy (parts : List Part) : List Part :=
  parts.insertionSort (fun p q => p.number ≤ q.number)

/-- The call `createReadStream(path.join(uploadDir, part.number.toString()))`;
`none` when the staged file does not exist. -/
def createReadStream (u : Upload) (part : Part) : Option Readable :=
  (u.files.lookup (Nat.toDigits 10 part.number)).map (fun data => { unread := data })

/-- The streams of the parts, in the order given; `none` when one is missing. -/
def openParts (u : Upload) : List Part → Option (List Readable)
  | [] => some []
  | p :: ps =>
    match createReadStream u p, openParts u ps with
    | some s, some ss => some (s :: ss)
    | _, _ => none

/-- Modelled from the spec: `concatStreams` of lib/utils is not among the
sources. It concatenates the streams into a single logical byte stream, in the
order given. -/
def concatStreams (streams : List Readable) : Readable :=
  { unread := (streams.map (·.unread)).flatten }

/-- The method `putObjectMultipart`; `none` when a referenced part is missing. -/
def putObjectMultipart (md5 : Bytes → Str) (win32 : Bool) (rootDirectory bucket : Str)
    (u : Upload) (parts : List Part) : Option (Str × PutOutcome) :=
  match openParts u (sortBy parts) with
  | none => none
  | some partStreams =>
    some (putObject md5 win32 rootDirectory bucket u.key (.stream (concatStreams partStreams)))

/-! ## Delete with cleanup -/

/-- The state of the file system: the paths of its directories and of its files. -/
structure FileSystem where
  dirs : List Str
  files : List Str
deriving DecidableEq

/-- The error codes of the file-system calls. -/
inductive FsError where
  | ENOENT
  | ENOTEMPTY
  | EISDIR
deriving DecidableEq

/-- Whether `entry` lies directly in the directory `dir`. -/
def isChildOf (dir entry : Str) : Bool :=
  (dir ++ ['/']).isPrefixOf entry &&
    !(entry.drop (dir.length + 1)).isEmpty && !(entry.drop (dir.length + 1)).contains '/'

/-- The call `readdirSync(dir)`: the entries of an existing directory. -/
def readdirSync (fs : FileSystem) (dir : Str) : Except FsError (List Str) :=
  if dir ∈ fs.dirs then
    .ok (((fs.dirs ++ fs.files).filter (isChildOf dir)).map (·.drop (dir.length + 1)))
  else .error .ENOENT

/-- The call `fs.rmdir(dir)`: removes an existing, empty directory. -/
def rmdir (fs : FileSystem) (dir : Str) : Except FsError FileSystem :=
  if dir ∈ fs.dirs then
    if ((fs.dirs ++ fs.files).filter (isChildOf dir)).isEmpty then
      .ok { fs with dirs := fs.dirs.filter (· ≠ dir) }
    else .error .ENOTEMPTY
  else .error .ENOENT

/-- The call `fs.unlink(filePath)`. -/
def unlink (fs : FileSystem) (filePath : Str) : Except FsError FileSystem :=
  if filePath ∈ fs.files then .ok { fs with files := fs.files.filter (· ≠ filePath) }
  else if filePath ∈ fs.dirs then .error .EISDIR
  else .error .ENOENT

/-- One of the calls `fs.unlink(filePath).catch(...)` of `deleteObject`: a
missing file is tolerated, any other error is thrown. -/
def unlinkTolerant (fs : FileSystem) (filePath : Str) : Except FsError FileSystem :=
  match unlink fs filePath with
  | .error .ENOENT => .ok fs
  | r => r

/-- The loop `while (parts.length && !readdirSync(...).length)` of
`deleteObject`; `revParts` is `parts` in reverse, so that `parts.pop()` takes
its head. -/
def cleanupLoop (bucketPath : Str) : List Str → FileSystem → Except FsError FileSystem
  | [], fs => .ok fs
  | part :: revParts, fs =>
    let dir := pathJoin (bucketPath :: (part :: revParts).reverse)
    match readdirSync fs dir with
    | .error e => .error e
    | .ok entries =>
      if entries.length = 0 then
        match rmdir fs dir with
        | .error e => .error e
        | .ok fs2 => cleanupLoop bucketPath revParts fs2
      else .ok fs

/-- The method `deleteObject`: the three files of the object are unlinked, then
the emptied directories are removed from the parent of the key upwards. -/
def deleteObject (win32 : Bool) (rootDirectory bucket key : Str) (fs : FileSystem) :
    Except FsError FileSystem :=
  match unlinkTolerant fs (getResourcePath win32 rootDirectory bucket key "object".toList) with
  | .error e => .error e
  | .ok fs1 =>
    match unlinkTolerant fs1 (getResourcePath win32 rootDirectory bucket key "object.md5".toList) with
    | .error e => .error e
    | .ok fs2 =>
      match unlinkTolerant fs2
          (getResourcePath win32 rootDirectory bucket key "metadata.json".toList) with
      | .error e => .error e
      | .ok fs3 =>
        cleanupLoop (getBucketPath rootDirectory bucket) (splitSlash key).dropLast.reverse fs3

/-- Whether a directory exists after an operation that completed. -/
def dirExistsAfter (r : Except FsError FileSystem) (dir : Str) : Bool :=
  match r with
  | .ok fs => decide (dir ∈ fs.dirs)
  | .error _ => false

/-! ## Example states -/

/-- The three files backing a key whose last segment is `name`, in name order. -/
def objectFiles (name : Str) : List Entry :=
  [ .file (formatSuffix name "metadata.json".toList),
    .file (formatSuffix name "object".toList),
    .file (formatSuffix name "object.md5".toList) ]

/-- The bucket directory holding the keys `k1`, `k2`, `k3` and `n/x`. -/
def flatTree : List Entry :=
  objectFiles "k1".toList ++ objectFiles "k2".toList ++ objectFiles "k3".toList ++
    [.dir "n".toList (objectFiles "x".toList)]

/-- The bucket directory holding the keys `a/b`, `a/c` and `a/d/e`. -/
def groupedTree : List Entry :=
  [.dir "a".toList
    (objectFiles "b".toList ++ objectFiles "c".toList ++
      [.dir "d".toList (objectFiles "e".toList)])]

/-- The bucket directory holding the single key `a/d/e`. -/
def nestedTree : List Entry :=
  [.dir "a".toList [.dir "d".toList (objectFiles "e".toList)]]

/-- The bucket directory holding the keys `a`, `a-b` and `a/x`, every directory
listed in ascending name order. -/
def orderTree : List Entry :=
  [.dir "a".toList (objectFiles "x".toList)] ++ objectFiles "a-b".toList ++
    objectFiles "a".toList

/-- The bucket directory holding the keys `a`, `b` and `c`. -/
def abcTree : List Entry :=
  objectFiles "a".toList ++ objectFiles "b".toList ++ objectFiles "c".toList

/-- A metadata lookup that finds the metadata of every key. -/
def allMetadata (_ : Str) : Option Unit := some ()

/-- The staging directory of an upload to key `k` whose parts 3, 1 and 2 hold
`C`, `A` and `B`. -/
def stagedUpload : Upload :=
  { key := "k".toList
    files := [("3".toList, [67]), ("1".toList, [65]), ("2".toList, [66])] }

/-- A file system whose bucket `/data/b` holds the single object `/x`. -/
def rootKeyFs : FileSystem :=
  { dirs := ["/data".toList, "/data/b".toList]
    files := ["/data/b/x._S3rver_object".toList, "/data/b/x._S3rver_object.md5".toList,
      "/data/b/x._S3rver_metadata.json".toList] }

/-- A file system whose bucket `/data/b` holds the single object `x/y/z`. -/
def deepKeyFs : FileSystem :=
  { dirs := ["/data".toList, "/data/b".toList, "/data/b/x".toList, "/data/b/x/y".toList]
    files := ["/data/b/x/y/z._S3rver_object".toList, "/data/b/x/y/z._S3rver_object.md5".toList,
      "/data/b/x/y/z._S3rver_metadata.json".toList] }

/-! ## Properties -/

theorem char_eq_of_toNat {a b : Char} (h1 : ¬ a.toNat < b.toNat) (h2 : ¬ b.toNat < a.toNat) :
    a = b := by
  have h : a.toNat = b.toNat := by omega
  apply Char.ext
  apply UInt32.ext
  exact h

theorem jsLt_append_left (x a b : Str) : jsLt (x ++ a) (x ++ b) = jsLt a b := by
  induction x with
  | nil => rfl
  | cons c cs ih => simp [jsLt, ih]

theorem jsLt_asymm : ∀ (a b : Str), jsLt a b = true → jsLt b a = false
  | [], [], h => by simp [jsLt] at h
  | [], _ :: _, _ => by simp [jsLt]
  | _ :: _, [], h => by simp [jsLt] at h
  | a :: as, b :: bs, h => by
    simp only [jsLt] at h ⊢
    by_cases h1 : a.toNat < b.toNat
    · have : ¬ b.toNat < a.toNat := by omega
      simp [this, h1]
    · by_cases h2 : b.toNat < a.toNat
      · simp [h1, h2] at h
      · simp only [h1, h2, if_false] at h ⊢
        exact jsLt_asymm as bs h

theorem jsLt_append_of_not_prefix : ∀ (a b c : Str), jsLt a b = true → ¬ a <+: b →
    jsLt (a ++ c) b = true
  | [], b, _, _, hp => absurd (List.nil_prefix) hp
  | _ :: _, [], _, h, _ => by simp [jsLt] at h
  | a :: as, b :: bs, c, h, hp => by
    simp only [jsLt, List.cons_append] at h ⊢
    by_cases h1 : a.toNat < b.toNat
    · simp [h1]
    · by_cases h2 : b.toNat < a.toNat
      · simp [h1, h2] at h
      · simp only [h1, h2, if_false] at h ⊢
        have hab : a = b := char_eq_of_toNat h1 h2
        subst hab
        apply jsLt_append_of_not_prefix as bs c h
        intro hpre
        exact hp ((List.prefix_cons_inj a).mpr hpre)

theorem startsWith_iff (s pat : Str) : startsWith s pat = true ↔ pat <+: s := by
  simp [startsWith]

theorem endsWith_iff (s pat : Str) : endsWith s pat = true ↔ pat <:+ s := by
  simp [endsWith]

theorem indexOf_eq_none_iff (s pat : Str) : indexOf s pat = none ↔ ¬ pat <:+: s := by
  induction s with
  | nil =>
    cases pat with
    | nil => simp [indexOf]
    | cons c cs => simp [indexOf]
  | cons c cs ih =>
    simp only [indexOf]
    by_cases hp : pat.isPrefixOf (c :: cs) = true
    · simp only [hp, if_true]
      have : pat <+: c :: cs := by simpa using hp
      simp [this.isInfix]
    · simp only [hp]
      have hnp : ¬ pat <+: c :: cs := by simpa using hp
      simp [ih, List.infix_cons_iff, hnp]

theorem indexOf_append_none (x y pat : Str) (h : indexOf (x ++ y) pat = none) :
    indexOf x pat = none := by
  rw [indexOf_eq_none_iff] at h ⊢
  intro hx
  exact h (hx.trans (List.infix_append' [] x y |>.trans (by simp)))

theorem objectSuffix_length : objectSuffix.length = 15 := by decide

theorem slash_not_mem_objectSuffix : '/' ∉ objectSuffix := by decide

theorem sliceFrom_nat (s : Str) (n : Nat) : sliceFrom s (n : Int) = s.drop n := by
  simp only [sliceFrom, slice, sliceIdx]
  have h1 : ¬ ((n : Int) < 0) := by omega
  have h2 : ¬ ((s.length : Int) < 0) := by omega
  simp only [h1, h2, if_false, Int.toNat_ofNat, Nat.min_self, List.take_length]
  by_cases h : n ≤ s.length
  · rw [Nat.min_eq_left h]
  · have h3 : s.length ≤ n := by omega
    rw [Nat.min_eq_right h3, List.drop_of_length_le h3, List.drop_of_length_le (le_refl _)]

theorem slice_zero_nat (s : Str) (n : Nat) : slice s 0 (n : Int) = s.take n := by
  simp only [slice, sliceIdx]
  have h1 : ¬ ((n : Int) < 0) := by omega
  simp only [h1, if_false, Int.toNat_ofNat, lt_self_iff_false, Int.toNat_zero, Nat.zero_min,
    List.drop_zero]
  by_cases h : n ≤ s.length
  · rw [Nat.min_eq_left h]
  · have h3 : s.length ≤ n := by omega
    rw [Nat.min_eq_right h3, List.take_of_length_le h3, List.take_of_length_le (le_refl _)]

theorem keyOfPath_eq (base k : Str) :
    keyOfPath false base (base ++ '/' :: (k ++ objectSuffix)) = k := by
  simp only [keyOfPath, decodeKeyPath, slice, sliceIdx, objectSuffix_length]
  have hlen : (base ++ '/' :: (k ++ objectSuffix)).length = base.length + 1 + k.length + 15 := by
    simp [objectSuffix_length]; omega
  rw [hlen]
  have h1 : ((-((15 : Nat) : Int)) < 0) := by omega
  have h2 : ¬ (((base.length : Int) + 1) < 0) := by omega
  simp only [h1, h2, if_true, if_false]
  have e1 : (((base.length + 1 + k.length + 15 : Nat) : Int) + -((15 : Nat) : Int)).toNat
      = base.length + 1 + k.length := by omega
  have e2 : min ((base.length : Int) + 1).toNat (base.length + 1 + k.length + 15)
      = base.length + 1 := by omega
  rw [e1, e2]
  have : base ++ '/' :: (k ++ objectSuffix) = (base ++ ['/']) ++ (k ++ objectSuffix) := by simp
  rw [this, List.take_append_eq_append_take, List.drop_append_eq_append_drop]
  simp

/-- A string ending in a slash-free suffix that is cut at a slash: the suffix
lies within the part after the slash. -/
theorem split_at_slash (x rest k suf : Str) (hs : '/' ∉ suf)
    (h : x ++ '/' :: rest = k ++ suf) :
    ∃ rest2, rest = rest2 ++ suf ∧ k = x ++ '/' :: rest2 := by
  have h2 : (x ++ ['/']) ++ rest = k ++ suf := by simpa using h
  rcases List.append_eq_append_iff.mp h2 with ⟨a, ha1, ha2⟩ | ⟨c, hc1, hc2⟩
  · exact ⟨a, ha2, by simpa using ha1⟩
  · rcases List.eq_nil_or_concat c with hc | ⟨c2, ch, hc⟩
    · subst hc
      refine ⟨[], by simpa using hc2.symm, by simpa using hc1.symm⟩
    · subst hc
      have : ch = '/' := by
        have h3 := congrArg List.getLast? hc1
        simp at h3
        exact h3.symm
      subst this
      exact absurd (by rw [hc2]; simp) hs

theorem encodeKeyPath_false (k : Str) : encodeKeyPath false k = k := rfl

theorem decodeKeyPath_false (k : Str) : decodeKeyPath false k = k := rfl

theorem shouldDescend_of_matches (base : Str) (o : ListOptions) (rel rest k : Str)
    (hk : k = rel ++ '/' :: rest) (hm : Matches o k) :
    shouldDescend false base o (base ++ '/' :: rel) = true := by
  obtain ⟨hsa, hpre, hdel⟩ := hm
  have hpre2 : o.pfx <+: k := (startsWith_iff _ _).mp hpre
  have hrelk : rel <+: k := ⟨'/' :: rest, hk.symm⟩
  simp only [shouldDescend, encodeKeyPath_false, joinSlash]
  -- (a) the directory does not precede the start-after path
  have ha : (jsLt (base ++ '/' :: rel) (base ++ '/' :: o.startAfter) &&
      (indexOf (base ++ '/' :: o.startAfter) (base ++ '/' :: rel)).isNone) = false := by
    rw [Bool.and_eq_false_iff]
    by_cases h1 : jsLt (base ++ '/' :: rel) (base ++ '/' :: o.startAfter) = true
    · right
      by_contra hnone
      have hnone2 : indexOf (base ++ '/' :: o.startAfter) (base ++ '/' :: rel) = none := by
        cases hi : indexOf (base ++ '/' :: o.startAfter) (base ++ '/' :: rel) with
        | none => rfl
        | some v => simp [hi] at hnone
      rw [indexOf_eq_none_iff] at hnone2
      have hnp : ¬ rel <+: o.startAfter := by
        intro hp
        apply hnone2
        have : base ++ '/' :: rel <+: base ++ '/' :: o.startAfter := by
          rw [List.prefix_append_right_inj, List.prefix_cons_inj]
          exact hp
        exact this.isInfix
      have h2 : jsLt rel o.startAfter = true := by
        have e : jsLt (base ++ '/' :: rel) (base ++ '/' :: o.startAfter) = jsLt rel o.startAfter := by
          have := jsLt_append_left (base ++ ['/']) rel o.startAfter
          simpa using this
        rw [← e]; exact h1
      have h3 := jsLt_append_of_not_prefix rel o.startAfter ('/' :: rest) h2 hnp
      rw [← hk] at h3
      have h4 := jsLt_asymm _ _ h3
      rw [hsa] at h4
      exact Bool.noConfusion h4
    · left
      simpa using h1
  rw [ha]
  simp only [Bool.false_eq_true, if_false]
  have hstart : startsWith (base ++ '/' :: rel) (base ++ '/' :: o.pfx) = true ↔ o.pfx <+: rel := by
    rw [startsWith_iff, List.prefix_append_right_inj, List.prefix_cons_inj]
  by_cases hb : startsWith (base ++ '/' :: rel) (base ++ '/' :: o.pfx) = true
  · simp only [hb, if_true]
    have hpr : o.pfx <+: rel := hstart.mp hb
    have hslice : sliceFrom (base ++ '/' :: rel) ((base ++ '/' :: o.pfx).length : Nat) =
        rel.drop o.pfx.length := by
      rw [sliceFrom_nat]
      have hl : (base ++ '/' :: o.pfx).length = base.length + (o.pfx.length + 1) := by simp
      rw [hl, List.drop_append, List.drop_succ_cons]
    simp only [hslice]
    rcases hdel with hd | hd
    · simp [hd]
    · have hdrop : k.drop o.pfx.length = rel.drop o.pfx.length ++ '/' :: rest := by
        rw [hk, List.drop_append_of_le_length hpr.length_le]
      rw [hdrop] at hd
      have := indexOf_append_none _ _ _ hd
      simp [this]
  · simp only [hb, Bool.false_eq_true, if_false]
    have hnot : ¬ o.pfx <+: rel := fun h => hb (hstart.mpr h)
    have hrp : rel <+: o.pfx := by
      rcases List.prefix_or_prefix_of_prefix hpre2 hrelk with h | h
      · exact absurd h hnot
      · exact h
    have : startsWith (base ++ '/' :: o.pfx) (base ++ '/' :: rel) = true := by
      rw [startsWith_iff, List.prefix_append_right_inj, List.prefix_cons_inj]
      exact hrp
    simp [this]

mutual
theorem walkEntry_prefix (f : Str → Bool) (dir : Str) (e : Entry) (p : Str)
    (h : p ∈ walkEntry f dir e) : ∃ rest, p = dir ++ '/' :: rest := by
  match e with
  | .file n =>
    simp only [walkEntry, List.mem_singleton] at h
    exact ⟨n, h⟩
  | .dir n cs =>
    simp only [walkEntry] at h
    split at h
    · obtain ⟨rest, hr⟩ := walkList_prefix f (dir ++ '/' :: n) cs p h
      exact ⟨n ++ '/' :: rest, by simp [hr]⟩
    · simp at h
theorem walkList_prefix (f : Str → Bool) (dir : Str) (es : List Entry) (p : Str)
    (h : p ∈ walkList f dir es) : ∃ rest, p = dir ++ '/' :: rest := by
  match es with
  | [] => simp [walkList] at h
  | e :: es =>
    simp only [walkList, List.mem_append] at h
    rcases h with h | h
    · exact walkEntry_prefix f dir e p h
    · exact walkList_prefix f dir es p h
end

mutual
theorem walkEntry_subset (f : Str → Bool) (dir : Str) (e : Entry) (p : Str)
    (h : p ∈ walkEntry f dir e) : p ∈ walkEntry (fun _ => true) dir e := by
  match e with
  | .file n => simpa [walkEntry] using h
  | .dir n cs =>
    simp only [walkEntry] at h ⊢
    split at h
    · simpa using walkList_subset f (dir ++ '/' :: n) cs p h
    · simp at h
theorem walkList_subset (f : Str → Bool) (dir : Str) (es : List Entry) (p : Str)
    (h : p ∈ walkList f dir es) : p ∈ walkList (fun _ => true) dir es := by
  match es with
  | [] => simp [walkList] at h
  | e :: es =>
    simp only [walkList, List.mem_append] at h ⊢
    rcases h with h | h
    · exact Or.inl (walkEntry_subset f dir e p h)
    · exact Or.inr (walkList_subset f dir es p h)
end

mutual
theorem walkEntry_complete (f : Str → Bool) (p : Str) (dir : Str) (e : Entry)
    (hf : ∀ x rest, p = (dir ++ '/' :: x) ++ '/' :: rest → f (dir ++ '/' :: x) = true)
    (h : p ∈ walkEntry (fun _ => true) dir e) : p ∈ walkEntry f dir e := by
  match e with
  | .file n => simpa [walkEntry] using h
  | .dir n cs =>
    simp only [walkEntry, if_true] at h ⊢
    obtain ⟨rest, hr⟩ := walkList_prefix _ _ cs p h
    rw [hf n rest hr]
    simp only [if_true]
    apply walkList_complete f p (dir ++ '/' :: n) cs _ h
    intro x rest2 hx
    have := hf (n ++ '/' :: x) rest2 (by simpa using hx)
    simpa using this
theorem walkList_complete (f : Str → Bool) (p : Str) (dir : Str) (es : List Entry)
    (hf : ∀ x rest, p = (dir ++ '/' :: x) ++ '/' :: rest → f (dir ++ '/' :: x) = true)
    (h : p ∈ walkList (fun _ => true) dir es) : p ∈ walkList f dir es := by
  match es with
  | [] => simp [walkList] at h
  | e :: es =>
    simp only [walkList, List.mem_append] at h ⊢
    rcases h with h | h
    · exact Or.inl (walkEntry_complete f p dir e hf h)
    · exact Or.inr (walkList_complete f p dir es hf h)
end

theorem listLoop_step (win32 : Bool) (bucketPath : Str) (o : ListOptions) (p : Str)
    (rest : List Str) (st : Listing) :
    listLoop win32 bucketPath o (p :: rest) st =
      match acceptedKey win32 bucketPath o p with
      | some key =>
        if belowMax st.keys.length o.maxKeys then
          listLoop win32 bucketPath o rest { st with keys := st.keys ++ [key] }
        else { st with isTruncated := true }
      | none =>
        if endsWith p objectSuffix && jsLt o.startAfter (keyOfPath win32 bucketPath p)
            && startsWith (keyOfPath win32 bucketPath p) o.pfx then
          match delimiterIndex o (keyOfPath win32 bucketPath p) with
          | some idx =>
            listLoop win32 bucketPath o rest
              { st with commonPrefixes := setAdd st.commonPrefixes (slice (keyOfPath win32 bucketPath p) 0 (o.pfx.length + idx + 1 : Nat)) }
          | none => listLoop win32 bucketPath o rest st
        else listLoop win32 bucketPath o rest st := by
  simp only [listLoop, acceptedKey, jsLe]
  cases h1 : endsWith p objectSuffix <;> simp
  cases h2 : jsLt o.startAfter (keyOfPath win32 bucketPath p) <;> simp
  cases h3 : startsWith (keyOfPath win32 bucketPath p) o.pfx <;> simp
  cases h4 : delimiterIndex o (keyOfPath win32 bucketPath p) <;> simp

theorem listLoop_keys_bounded (win32 : Bool) (bucketPath : Str) (o : ListOptions) (n : Nat)
    (hmax : o.maxKeys = some n) (paths : List Str) :
    ∀ st : Listing, st.keys.length ≤ n →
      (listLoop win32 bucketPath o paths st).keys =
          st.keys ++ (acceptedKeys win32 bucketPath o paths).take (n - st.keys.length) ∧
        ((listLoop win32 bucketPath o paths st).isTruncated =
          (st.isTruncated || decide (n - st.keys.length < (acceptedKeys win32 bucketPath o paths).length))) := by
  induction paths with
  | nil => intro st _; simp [listLoop, acceptedKeys]
  | cons p rest ih =>
    intro st hst
    rw [listLoop_step]
    cases hk : acceptedKey win32 bucketPath o p with
    | none =>
      have hacc : acceptedKeys win32 bucketPath o (p :: rest) = acceptedKeys win32 bucketPath o rest := by
        simp [acceptedKeys, List.filterMap_cons, hk]
      rw [hacc]
      simp only []
      split
      · split
        · exact ih _ hst
        · exact ih _ hst
      · exact ih _ hst
    | some key =>
      have hacc : acceptedKeys win32 bucketPath o (p :: rest) = key :: acceptedKeys win32 bucketPath o rest := by
        simp [acceptedKeys, List.filterMap_cons, hk]
      rw [hacc]
      simp only [hmax, belowMax]
      by_cases hlt : st.keys.length < n
      · simp only [hlt, decide_True, if_true]
        have h := ih { st with keys := st.keys ++ [key] } (by simp; omega)
        obtain ⟨h1, h2⟩ := h
        constructor
        · rw [h1]
          have : n - st.keys.length = (n - (st.keys ++ [key]).length) + 1 := by simp; omega
          rw [this, List.take_succ_cons]; simp
        · rw [h2]
          congr 1
          simp only [List.length_append, List.length_cons, List.length_nil]
          apply Bool.decide_congr
          omega
      · have hn : n - st.keys.length = 0 := by omega
        simp [hlt, hn]


theorem listLoop_keys_unbounded (win32 : Bool) (bucketPath : Str) (o : ListOptions)
    (hmax : o.maxKeys = none) (paths : List Str) :
    ∀ st : Listing, (listLoop win32 bucketPath o paths st).keys =
      st.keys ++ acceptedKeys win32 bucketPath o paths := by
  induction paths with
  | nil => intro st; simp [listLoop, acceptedKeys]
  | cons p rest ih =>
    intro st
    rw [listLoop_step]
    cases hk : acceptedKey win32 bucketPath o p with
    | none =>
      have hacc : acceptedKeys win32 bucketPath o (p :: rest) =
          acceptedKeys win32 bucketPath o rest := by
        simp [acceptedKeys, List.filterMap_cons, hk]
      rw [hacc]
      simp only []
      split
      · split
        · exact ih _
        · exact ih _
      · exact ih _
    | some key =>
      have hacc : acceptedKeys win32 bucketPath o (p :: rest) =
          key :: acceptedKeys win32 bucketPath o rest := by
        simp [acceptedKeys, List.filterMap_cons, hk]
      rw [hacc]
      simp only [hmax, belowMax, if_true]
      rw [ih]
      simp

theorem splitSlash_ne_nil (s : Str) : splitSlash s ≠ [] := by
  induction s with
  | nil => simp [splitSlash]
  | cons c cs ih =>
    simp only [splitSlash]
    split
    · simp
    · split <;> simp

theorem joinSlash_cons_cons (s t : Str) (ss : List Str) :
    joinSlash (s :: t :: ss) = s ++ '/' :: joinSlash (t :: ss) := rfl

theorem joinSlash_cons_of_ne_nil (s : Str) (ss : List Str) (h : ss ≠ []) :
    joinSlash (s :: ss) = s ++ '/' :: joinSlash ss := by
  cases ss with
  | nil => exact absurd rfl h
  | cons t ts => rfl

theorem joinSlash_splitSlash (s : Str) : joinSlash (splitSlash s) = s := by
  induction s with
  | nil => rfl
  | cons c cs ih =>
    simp only [splitSlash]
    split
    · rename_i hc
      rw [joinSlash_cons_of_ne_nil _ _ (splitSlash_ne_nil cs), ih, hc]
      rfl
    · split
      · rename_i h; exact absurd h (splitSlash_ne_nil cs)
      · rename_i s ss h
        rw [h] at ih
        cases ss with
        | nil => simp only [joinSlash] at ih ⊢; rw [ih]
        | cons t ts =>
          simp only [joinSlash_cons_cons] at ih ⊢
          rw [← ih]; rfl

theorem splitSlash_no_slash (s : Str) : ∀ seg ∈ splitSlash s, '/' ∉ seg := by
  induction s with
  | nil => simp [splitSlash]
  | cons c cs ih =>
    simp only [splitSlash]
    split
    · intro seg hseg
      rcases List.mem_cons.mp hseg with h | h
      · subst h; simp
      · exact ih seg h
    · rename_i hc
      split
      · intro seg hseg
        simp only [List.mem_singleton] at hseg
        subst hseg
        simp only [List.mem_singleton]
        exact fun h => hc h.symm
      · rename_i s ss h
        rw [h] at ih
        intro seg hseg
        rcases List.mem_cons.mp hseg with h2 | h2
        · subst h2
          intro hm
          rcases List.mem_cons.mp hm with h3 | h3
          · exact hc h3.symm
          · exact ih s (List.mem_cons_self _ _) h3
        · exact ih seg (List.mem_cons_of_mem _ h2)

theorem splitSlash_of_no_slash (s : Str) (h : '/' ∉ s) : splitSlash s = [s] := by
  induction s with
  | nil => rfl
  | cons c cs ih =>
    have hc : c ≠ '/' := fun e => h (by simp [e])
    have hcs : '/' ∉ cs := fun e => h (List.mem_cons_of_mem _ e)
    simp [splitSlash, hc, ih hcs]

theorem splitSlash_cons (c : Char) (cs : Str) :
    splitSlash (c :: cs) =
      if c = '/' then [] :: splitSlash cs
      else (c :: (splitSlash cs).headD []) :: (splitSlash cs).tail := by
  simp only [splitSlash]
  split
  · rfl
  · cases h : splitSlash cs with
    | nil => exact absurd h (splitSlash_ne_nil cs)
    | cons s ss => rfl

theorem splitSlash_append_of_no_slash (x y : Str) (hx : '/' ∉ x) :
    splitSlash (x ++ y) = (x ++ (splitSlash y).headD []) :: (splitSlash y).tail := by
  induction x with
  | nil =>
    have := splitSlash_ne_nil y
    cases h : splitSlash y with
    | nil => exact absurd h this
    | cons a as => simp [h]
  | cons c cs ih =>
    have hc : c ≠ '/' := fun e => hx (by simp [e])
    have hcs : '/' ∉ cs := fun e => hx (List.mem_cons_of_mem _ e)
    rw [List.cons_append, splitSlash_cons, if_neg hc, ih hcs]
    rfl

theorem splitSlash_append_slash (a b : Str) :
    splitSlash (a ++ '/' :: b) = splitSlash a ++ splitSlash b := by
  induction a with
  | nil => simp [splitSlash]
  | cons c cs ih =>
    rw [List.cons_append, splitSlash_cons, splitSlash_cons, ih]
    split
    · rfl
    · have := splitSlash_ne_nil cs
      cases h : splitSlash cs with
      | nil => exact absurd h this
      | cons s ss => simp

theorem splitSlash_joinSlash (segs : List Str) (hne : segs ≠ [])
    (h : ∀ seg ∈ segs, '/' ∉ seg) : splitSlash (joinSlash segs) = segs := by
  induction segs with
  | nil => exact absurd rfl hne
  | cons s ss ih =>
    cases ss with
    | nil => simpa [joinSlash] using splitSlash_of_no_slash s (h s (by simp))
    | cons t ts =>
      rw [joinSlash_cons_cons, splitSlash_append_slash,
        splitSlash_of_no_slash s (h s (by simp)),
        ih (by simp) (fun seg hs => h seg (List.mem_cons_of_mem _ hs))]
      rfl

theorem joinSlash_append (xs ys : List Str) (hx : xs ≠ []) (hy : ys ≠ []) :
    joinSlash (xs ++ ys) = joinSlash xs ++ '/' :: joinSlash ys := by
  induction xs with
  | nil => exact absurd rfl hx
  | cons x xs ih =>
    cases xs with
    | nil =>
      simp only [List.singleton_append, joinSlash]
      exact joinSlash_cons_of_ne_nil x ys hy
    | cons t ts =>
      rw [List.cons_append, joinSlash_cons_of_ne_nil _ _ (by simp), ih (by simp),
        joinSlash_cons_cons]
      simp

theorem joinSlash_concat_append (xs : List Str) (y z : Str) :
    joinSlash (xs ++ [y ++ z]) = joinSlash (xs ++ [y]) ++ z := by
  cases xs with
  | nil => simp [joinSlash]
  | cons x xs =>
    rw [joinSlash_append _ _ (by simp) (by simp), joinSlash_append _ _ (by simp) (by simp)]
    simp [joinSlash]

theorem joinSlash_ne_nil (s : Str) (ss : List Str) (hs : s ≠ []) : joinSlash (s :: ss) ≠ [] := by
  cases ss with
  | nil => simpa [joinSlash] using hs
  | cons t ts => simp [joinSlash_cons_cons, hs]

theorem joinSlash_getLast (segs : List Str) (hne : segs ≠ [])
    (h : ∀ seg ∈ segs, seg ≠ [] ∧ '/' ∉ seg) : (joinSlash segs).getLast? ≠ some '/' := by
  induction segs with
  | nil => exact absurd rfl hne
  | cons s ss ih =>
    cases ss with
    | nil =>
      simp only [joinSlash]
      intro hl
      have := List.mem_of_getLast?_eq_some hl
      exact (h s (by simp)).2 this
    | cons t ts =>
      rw [joinSlash_cons_cons]
      have hne2 : joinSlash (t :: ts) ≠ [] := joinSlash_ne_nil t ts (h t (by simp)).1
      have : (s ++ '/' :: joinSlash (t :: ts)).getLast? = (joinSlash (t :: ts)).getLast? := by
        have e : s ++ '/' :: joinSlash (t :: ts) = (s ++ ['/']) ++ joinSlash (t :: ts) := by simp
        rw [e, List.getLast?_append_of_ne_nil _ hne2]
      rw [this]
      exact ih (by simp) (fun seg hs => h seg (List.mem_cons_of_mem _ hs))

theorem normStep_plain (a : Bool) (res : List Str) (seg : Str) (h : plainSegment seg = true) :
    normStep a res seg = res ++ [seg] := by
  simp only [plainSegment, Bool.not_eq_true', decide_eq_false_iff_not, not_or] at h
  simp [normStep, h.1, h.2.1, h.2.2]

theorem foldl_normStep_plain (a : Bool) (segs : List Str)
    (h : ∀ seg ∈ segs, plainSegment seg = true) :
    ∀ res, segs.foldl (normStep a) res = res ++ segs := by
  induction segs with
  | nil => intro res; simp
  | cons s ss ih =>
    intro res
    rw [List.foldl_cons, normStep_plain a res s (h s (by simp)),
      ih (fun seg hs => h seg (List.mem_cons_of_mem _ hs))]
    simp

theorem properBase_shape (root bucket : Str) (hB : ProperBase root bucket) :
    joinSlash ([root, bucket].filter (fun a => !a.isEmpty)) ≠ [] ∧
    (joinSlash ([root, bucket].filter (fun a => !a.isEmpty))).getLast? ≠ some '/' ∧
    getBucketPath root bucket =
      (if (joinSlash ([root, bucket].filter (fun a => !a.isEmpty))).head? = some '/'
        then ['/'] else []) ++
      joinSlash (normalizeSegs
        (!decide ((joinSlash ([root, bucket].filter (fun a => !a.isEmpty))).head? = some '/'))
        (joinSlash ([root, bucket].filter (fun a => !a.isEmpty)))) ∧
    normalizeSegs
        (!decide ((joinSlash ([root, bucket].filter (fun a => !a.isEmpty))).head? = some '/'))
        (joinSlash ([root, bucket].filter (fun a => !a.isEmpty))) ≠ [] := by
  obtain ⟨h1, h2⟩ := hB
  unfold getBucketPath pathJoin at h1 h2 ⊢
  generalize joinSlash ([root, bucket].filter (fun a => !a.isEmpty)) = j at h1 h2 ⊢
  simp only [] at h1 h2 ⊢
  by_cases hj : j = []
  · simp [hj] at h1
  · simp only [hj, if_false] at h1 h2 ⊢
    unfold posixNormalize at h1 h2 ⊢
    simp only [hj, if_false] at h1 h2 ⊢
    by_cases hb : joinSlash (normalizeSegs (!decide (j.head? = some '/')) j) = []
    · simp only [hb, if_true] at h1 h2
      by_cases ha : j.head? = some '/'
      · simp [ha] at h2
      · by_cases ht : j.getLast? = some '/'
        · simp [ha, ht] at h2
        · simp [ha, ht] at h1
    · simp only [hb, if_false] at h1 h2 ⊢
      by_cases ht : j.getLast? = some '/'
      · simp [ht] at h2
      · refine ⟨hj, ht, ?_, ?_⟩
        · simp [ht]
        · intro hn
          apply hb
          rw [hn]; rfl

theorem pathJoin_extend (root bucket : Str) (segs : List Str) (hB : ProperBase root bucket)
    (hne : segs ≠ []) (hplain : ∀ seg ∈ segs, plainSegment seg = true)
    (hslash : ∀ seg ∈ segs, '/' ∉ seg) :
    pathJoin ([root, bucket] ++ segs) = getBucketPath root bucket ++ '/' :: joinSlash segs := by
  obtain ⟨hj, ht, hBeq, hstack⟩ := properBase_shape root bucket hB
  have hnonempty : ∀ seg ∈ segs, seg ≠ [] := by
    intro seg hs he
    have := hplain seg hs
    simp [plainSegment, he] at this
  have hfilter : ([root, bucket] ++ segs).filter (fun a => !a.isEmpty) =
      [root, bucket].filter (fun a => !a.isEmpty) ++ segs := by
    rw [List.filter_append]
    congr 1
    rw [List.filter_eq_self]
    intro seg hs
    have := hnonempty seg hs
    cases seg with
    | nil => exact absurd rfl this
    | cons c cs => rfl
  have hbase : [root, bucket].filter (fun a => !a.isEmpty) ≠ [] := by
    intro h; rw [h] at hj; exact hj rfl
  rw [hBeq]
  unfold pathJoin
  simp only []
  rw [hfilter, joinSlash_append _ _ hbase hne]
  generalize joinSlash ([root, bucket].filter (fun a => !a.isEmpty)) = j at hj ht hstack ⊢
  have hjs : joinSlash segs ≠ [] := by
    cases segs with
    | nil => exact absurd rfl hne
    | cons s ss => exact joinSlash_ne_nil s ss (hnonempty s (by simp))
  have hne2 : j ++ '/' :: joinSlash segs ≠ [] := by simp
  have hhead : (j ++ '/' :: joinSlash segs).head? = j.head? := by
    cases j with
    | nil => exact absurd rfl hj
    | cons c cs => rfl
  have hlast : (j ++ '/' :: joinSlash segs).getLast? ≠ some '/' := by
    have e : j ++ '/' :: joinSlash segs = (j ++ ['/']) ++ joinSlash segs := by simp
    rw [e, List.getLast?_append_of_ne_nil _ hjs]
    exact joinSlash_getLast segs hne (fun seg hs => ⟨hnonempty seg hs, hslash seg hs⟩)
  have hsegs : ∀ a, normalizeSegs a (j ++ '/' :: joinSlash segs) = normalizeSegs a j ++ segs := by
    intro a
    unfold normalizeSegs
    rw [splitSlash_append_slash, List.foldl_append, splitSlash_joinSlash segs hne hslash,
      foldl_normStep_plain a segs hplain]
  simp only [hne2, if_false]
  unfold posixNormalize
  simp only [hne2, if_false, hhead, hlast, hsegs]
  generalize normalizeSegs (!decide (j.head? = some '/')) j = stack at hstack ⊢
  rw [joinSlash_append stack segs hstack hne]
  simp

theorem getResourcePath_eq (win32 : Bool) (root bucket key resource : Str)
    (hB : ProperBase root bucket)
    (hkey : ∀ seg ∈ keyParts win32 key, plainSegment seg = true)
    (hres : '/' ∉ resource) :
    getResourcePath win32 root bucket key resource =
      getBucketPath root bucket ++ '/' :: (encodeKeyPath win32 key ++ formatSuffix [] resource) := by
  unfold getResourcePath keyParts at *
  simp only []
  have hne := splitSlash_ne_nil (encodeKeyPath win32 key)
  have hjoin := joinSlash_splitSlash (encodeKeyPath win32 key)
  have hno := splitSlash_no_slash (encodeKeyPath win32 key)
  generalize splitSlash (encodeKeyPath win32 key) = parts at hkey hne hjoin hno
  obtain ⟨ds, l, rfl⟩ : ∃ ds l, parts = ds ++ [l] := by
    rcases List.eq_nil_or_concat parts with h | ⟨ds, l, h⟩
    · exact absurd h hne
    · exact ⟨ds, l, by simpa using h⟩
  have hl : (ds ++ [l]).getLastD [] = l := by simp [List.getLastD_eq_getLast?]
  rw [hl, List.dropLast_concat, List.append_assoc]
  have hsufslash : '/' ∉ formatSuffix l resource := by
    simp only [formatSuffix, List.mem_append, not_or]
    exact ⟨⟨hno l (by simp), by decide⟩, hres⟩
  have hsufplain : plainSegment (formatSuffix l resource) = true := by
    have hlen : 9 ≤ (formatSuffix l resource).length := by
      simp [formatSuffix]; omega
    simp only [plainSegment, Bool.not_eq_true', decide_eq_false_iff_not, not_or]
    refine ⟨?_, ?_, ?_⟩ <;> intro h <;> rw [h] at hlen <;> simp at hlen
  rw [pathJoin_extend root bucket (ds ++ [formatSuffix l resource]) hB (by simp)]
  · congr 2
    rw [← hjoin]
    have : formatSuffix l resource = l ++ formatSuffix [] resource := by simp [formatSuffix]
    rw [this, joinSlash_concat_append]
  · intro seg hs
    rcases List.mem_append.mp hs with h | h
    · exact hkey seg (List.mem_append_left _ h)
    · simp only [List.mem_singleton] at h; rw [h]; exact hsufplain
  · intro seg hs
    rcases List.mem_append.mp hs with h | h
    · exact hno seg (List.mem_append_left _ h)
    · simp only [List.mem_singleton] at h; rw [h]; exact hsufslash

theorem objectPath_eq (root bucket k : Str) (hB : ProperBase root bucket)
    (hk : WellFormedKey k) :
    getResourcePath false root bucket k "object".toList =
      getBucketPath root bucket ++ '/' :: (k ++ objectSuffix) := by
  have := getResourcePath_eq false root bucket k "object".toList hB
    (by simpa [keyParts, encodeKeyPath_false] using hk) (by decide)
  rw [this, encodeKeyPath_false]
  rfl

theorem delimiterIndex_eq_none_iff (o : ListOptions) (k : Str) :
    delimiterIndex o k = none ↔
      (o.delimiter = [] ∨ indexOf (k.drop o.pfx.length) o.delimiter = none) := by
  unfold delimiterIndex
  rw [sliceFrom_nat]
  cases hd : o.delimiter with
  | nil => simp
  | cons c cs => simp

theorem acceptedKey_objectPath (base : Str) (o : ListOptions) (k : Str) :
    acceptedKey false base o (base ++ '/' :: (k ++ objectSuffix)) =
      if jsLt o.startAfter k && startsWith k o.pfx && (delimiterIndex o k).isNone
      then some k else none := by
  have hend : endsWith (base ++ '/' :: (k ++ objectSuffix)) objectSuffix = true := by
    rw [endsWith_iff]
    exact ⟨base ++ '/' :: k, by simp⟩
  simp only [acceptedKey, keyOfPath_eq, hend, Bool.true_and]

theorem mem_acceptedKeys_walk (base : Str) (o : ListOptions) (paths : List Str) (k : Str)
    (hpre : ∀ p ∈ paths, ∃ rest, p = base ++ '/' :: rest) :
    k ∈ acceptedKeys false base o paths ↔
      base ++ '/' :: (k ++ objectSuffix) ∈ paths ∧ Matches o k := by
  simp only [acceptedKeys, List.mem_filterMap]
  constructor
  · rintro ⟨p, hp, hacc⟩
    obtain ⟨rest, hrest⟩ := hpre p hp
    have hend : endsWith p objectSuffix = true := by
      simp only [acceptedKey] at hacc
      by_contra hne
      simp [hne] at hacc
    obtain ⟨x, hx⟩ := (endsWith_iff _ _).mp hend
    obtain ⟨rest2, hr2, _⟩ := split_at_slash base rest x objectSuffix
      slash_not_mem_objectSuffix (by rw [← hrest, hx])
    have hp2 : p = base ++ '/' :: (rest2 ++ objectSuffix) := by rw [hrest, hr2]
    rw [hp2, acceptedKey_objectPath] at hacc
    split at hacc
    · rename_i hc
      simp only [Option.some.injEq] at hacc
      subst hacc
      simp only [Bool.and_eq_true, Option.isNone_iff_eq_none] at hc
      rw [hp2] at hp
      exact ⟨hp, hc.1.1, hc.1.2, (delimiterIndex_eq_none_iff o rest2).mp hc.2⟩
    · exact absurd hacc (by simp)
  · rintro ⟨hp, hsa, hpf, hdel⟩
    refine ⟨_, hp, ?_⟩
    rw [acceptedKey_objectPath]
    have := (delimiterIndex_eq_none_iff o k).mpr hdel
    simp [hsa, hpf, this]

theorem mem_withMetadata {μ : Type} (getMetadata : Str → Option μ) (keys : List Str) (k : Str) :
    k ∈ (withMetadata getMetadata keys).map Prod.fst ↔
      k ∈ keys ∧ (getMetadata k).isSome = true := by
  simp only [withMetadata, List.mem_map, List.mem_filterMap, Option.map_eq_some']
  constructor
  · rintro ⟨⟨k2, m⟩, ⟨key, hkey, m2, hm2, heq⟩, rfl⟩
    simp only [Prod.mk.injEq] at heq
    obtain ⟨rfl, rfl⟩ := heq
    exact ⟨hkey, by simp [hm2]⟩
  · rintro ⟨hk, hm⟩
    obtain ⟨m, hm2⟩ := Option.isSome_iff_exists.mp hm
    exact ⟨(k, m), ⟨k, hk, m, hm2, rfl⟩, rfl⟩

theorem walkBucket_complete (base : Str) (tree : List Entry) (o : ListOptions) (k : Str)
    (hm : Matches o k) (h : base ++ '/' :: (k ++ objectSuffix) ∈ allFiles base tree) :
    base ++ '/' :: (k ++ objectSuffix) ∈ walkBucket false base tree o := by
  apply walkList_complete _ _ base tree _ h
  intro x rest hx
  have hx2 : x ++ '/' :: rest = k ++ objectSuffix := by
    have : base ++ '/' :: (k ++ objectSuffix) = base ++ '/' :: (x ++ '/' :: rest) := by
      simpa using hx
    have := List.append_cancel_left this
    simp only [List.cons.injEq, true_and] at this
    exact this.symm
  obtain ⟨rest2, _, hk⟩ := split_at_slash x rest k objectSuffix slash_not_mem_objectSuffix hx2
  exact shouldDescend_of_matches base o x rest2 k hk hm

theorem stored_iff_file (root bucket : Str) (tree : List Entry) (stored : List Str)
    (hB : ProperBase root bucket) (hwf : ∀ k ∈ stored, WellFormedKey k)
    (hstore : Stores root bucket tree stored) (k : Str) :
    getBucketPath root bucket ++ '/' :: (k ++ objectSuffix) ∈
        allFiles (getBucketPath root bucket) tree ↔ k ∈ stored := by
  constructor
  · intro h
    have h1 := hstore.1 _ (List.mem_filter.mpr ⟨h, by
      simp only [endsWith_iff]
      exact ⟨getBucketPath root bucket ++ '/' :: k, by simp⟩⟩)
    obtain ⟨k2, hk2, heq⟩ := List.mem_map.mp h1
    rw [objectPath_eq root bucket k2 hB (hwf k2 hk2)] at heq
    have := List.append_cancel_left heq
    simp only [List.cons.injEq, true_and] at this
    have := List.append_cancel_right this
    rw [← this]; exact hk2
  · intro hk
    have := hstore.2 _ (List.mem_map.mpr ⟨k, hk, rfl⟩)
    rw [objectPath_eq root bucket k hB (hwf k hk)] at this
    exact this

/-- C1: with `maxKeys` unbounded, identity codec and the metadata of every
stored key present, `listObjects` returns exactly the stored keys that are
greater than `startAfter`, start with the prefix and are not grouped by the
delimiter; in particular the pruning predicate never cuts the walk off from
the content file of such a key. -/
theorem listObjects_returns_exactly_matching {μ : Type} (rootDirectory bucket : Str)
    (tree : List Entry) (stored : List Str) (getMetadata : Str → Option μ) (o : ListOptions)
    (k : Str)
    (hmax : o.maxKeys = none)
    (hbase : ProperBase rootDirectory bucket)
    (hwf : ∀ key ∈ stored, WellFormedKey key)
    (hstore : Stores rootDirectory bucket tree stored)
    (hmeta : ∀ key ∈ stored, (getMetadata key).isSome = true) :
    (k ∈ listedKeys (listObjects false rootDirectory bucket tree getMetadata o) ↔
      k ∈ stored ∧ jsLt o.startAfter k = true ∧ startsWith k o.pfx = true ∧
        (o.delimiter = [] ∨ indexOf (k.drop o.pfx.length) o.delimiter = none)) ∧
    (k ∈ stored → jsLt o.startAfter k = true → startsWith k o.pfx = true →
        (o.delimiter = [] ∨ indexOf (k.drop o.pfx.length) o.delimiter = none) →
      getResourcePath false rootDirectory bucket k "object".toList ∈
        walkBucket false (getBucketPath rootDirectory bucket) tree o) := by
  have hwalk : ∀ p ∈ walkBucket false (getBucketPath rootDirectory bucket) tree o,
      ∃ rest, p = getBucketPath rootDirectory bucket ++ '/' :: rest :=
    fun p hp => walkList_prefix _ _ tree p hp
  have hfile := stored_iff_file rootDirectory bucket tree stored hbase hwf hstore
  constructor
  · unfold listedKeys listObjects listKeys
    simp only []
    rw [mem_withMetadata, listLoop_keys_unbounded false _ o hmax]
    simp only [List.nil_append]
    rw [mem_acceptedKeys_walk _ o _ k hwalk]
    constructor
    · rintro ⟨⟨hp, hm⟩, _⟩
      exact ⟨(hfile k).mp (walkList_subset _ _ tree _ hp), hm⟩
    · rintro ⟨hk, hm⟩
      exact ⟨⟨walkBucket_complete _ tree o k hm ((hfile k).mpr hk), hm⟩, hmeta k hk⟩
  · intro hk h1 h2 h3
    rw [objectPath_eq rootDirectory bucket k hbase (hwf k hk)]
    exact walkBucket_complete _ tree o k ⟨h1, h2, h3⟩ ((hfile k).mpr hk)

/-- C3: for every sequence of walked paths and every `maxKeys = n`, the loop of
`listObjects` keeps the first `min n |A|` of the accepted keys `A`, so at most
`n` keys, and sets `isTruncated` exactly when `A` has more than `n` keys. -/
theorem listObjects_truncates_at_maxKeys (win32 : Bool) (bucketPath : Str) (o : ListOptions)
    (paths : List Str) (n : Nat) :
    (listLoop win32 bucketPath { o with maxKeys := some n } paths {}).keys =
        (acceptedKeys win32 bucketPath o paths).take n ∧
      (listLoop win32 bucketPath { o with maxKeys := some n } paths {}).keys.length =
        min n (acceptedKeys win32 bucketPath o paths).length ∧
      ((listLoop win32 bucketPath { o with maxKeys := some n } paths {}).isTruncated = true ↔
        n < (acceptedKeys win32 bucketPath o paths).length) := by
  have h := listLoop_keys_bounded win32 bucketPath { o with maxKeys := some n } n rfl paths {}
    (Nat.zero_le n)
  have hacc : acceptedKeys win32 bucketPath { o with maxKeys := some n } paths =
      acceptedKeys win32 bucketPath o paths := rfl
  rw [hacc] at h
  obtain ⟨h1, h2⟩ := h
  simp only [List.length_nil, Nat.sub_zero, List.nil_append, Bool.false_or] at h1 h2
  refine ⟨h1, ?_, ?_⟩
  · rw [h1, List.length_take]
  · rw [h2]; simp

theorem mem_ancestorDirs (p d : Str) : d ∈ ancestorDirs p ↔ ∃ rest, p = d ++ '/' :: rest := by
  induction p generalizing d with
  | nil => simp [ancestorDirs]
  | cons c cs ih =>
    simp only [ancestorDirs, List.mem_append, List.mem_map]
    constructor
    · rintro (h | ⟨d2, hd2, rfl⟩)
      · split at h
        · rename_i hc
          simp only [List.mem_singleton] at h
          subst h; subst hc
          exact ⟨cs, rfl⟩
        · simp at h
      · obtain ⟨rest, hr⟩ := (ih d2).mp hd2
        exact ⟨rest, by rw [hr]; rfl⟩
    · rintro ⟨rest, hr⟩
      cases d with
      | nil =>
        left
        simp only [List.nil_append, List.cons.injEq] at hr
        simp [hr.1]
      | cons x xs =>
        right
        simp only [List.cons_append, List.cons.injEq] at hr
        refine ⟨xs, (ih xs).mpr ⟨rest, hr.2⟩, by rw [hr.1]⟩

theorem splitSlash_append_suffix (x y : Str) (hy : '/' ∉ y) :
    splitSlash (x ++ y) = (splitSlash x).dropLast ++ [(splitSlash x).getLastD [] ++ y] := by
  have hne := splitSlash_ne_nil x
  have hjoin := joinSlash_splitSlash x
  have hno := splitSlash_no_slash x
  generalize splitSlash x = parts at hne hjoin hno
  rcases List.eq_nil_or_concat parts with h | ⟨ds, l, h⟩
  · exact absurd h hne
  · have h2 : parts = ds ++ [l] := by simpa using h
    subst h2
    have hl : (ds ++ [l]).getLastD [] = l := by simp [List.getLastD_eq_getLast?]
    rw [hl, List.dropLast_concat, ← hjoin, ← joinSlash_concat_append,
      splitSlash_joinSlash _ (by simp)]
    intro seg hs
    rcases List.mem_append.mp hs with h3 | h3
    · exact hno seg (List.mem_append_left _ h3)
    · simp only [List.mem_singleton] at h3
      rw [h3, List.mem_append, not_or]
      exact ⟨hno l (by simp), hy⟩

/-- Witness of C1: among the keys `k1`, `k2`, `k3`, `n/x` listed after `k1`. -/
theorem listObjects_returns_exactly_matching_witness :
    ("k2".toList ∈ listedKeys (listObjects false "/data".toList "bkt".toList flatTree allMetadata
        { startAfter := "k1".toList }) ↔
      "k2".toList ∈ ["k1".toList, "k2".toList, "k3".toList, "n/x".toList] ∧
        jsLt "k1".toList "k2".toList = true ∧ startsWith "k2".toList [] = true ∧
        (([] : Str) = [] ∨ indexOf ("k2".toList.drop 0) [] = none)) ∧
    ("k2".toList ∈ ["k1".toList, "k2".toList, "k3".toList, "n/x".toList] →
      jsLt "k1".toList "k2".toList = true → startsWith "k2".toList [] = true →
      (([] : Str) = [] ∨ indexOf ("k2".toList.drop 0) [] = none) →
      getResourcePath false "/data".toList "bkt".toList "k2".toList "object".toList ∈
        walkBucket false (getBucketPath "/data".toList "bkt".toList) flatTree
          { startAfter := "k1".toList }) :=
  listObjects_returns_exactly_matching "/data".toList "bkt".toList flatTree
    ["k1".toList, "k2".toList, "k3".toList, "n/x".toList] allMetadata
    { startAfter := "k1".toList } "k2".toList rfl (by decide) (by decide) (by decide)
    (fun _ _ => rfl)

/-- C2: a key below a directory that holds no object file of its own gets no
common prefix. With the single key `a/d/e`, an empty prefix and delimiter `/`,
the directory `a/d` is pruned before any key is seen, and `commonPrefixes` is
empty where `a/` is due; with `a/b` and `a/c` stored as well, `a/` is found. -/
theorem listObjects_drops_common_prefix_of_pruned_directory :
    Stores "/data".toList "bkt".toList nestedTree ["a/d/e".toList] ∧
    (listObjects false "/data".toList "bkt".toList nestedTree allMetadata
        { delimiter := "/".toList }).commonPrefixes = [] ∧
    shouldDescend false "/data/bkt".toList { delimiter := "/".toList } "/data/bkt/a/d".toList
      = false ∧
    (listObjects false "/data".toList "bkt".toList groupedTree allMetadata
        { delimiter := "/".toList }).commonPrefixes = ["a/".toList] ∧
    listedKeys (listObjects false "/data".toList "bkt".toList groupedTree allMetadata
        { delimiter := "/".toList }) = [] := by
  decide

/-- C4: the keys come back in walk order, which is not key order. With the keys
`a`, `a-b` and `a/x` and every directory listed in ascending name order, the
listing is `a/x`, `a-b`, `a`; a first page of one key is `a/x`, and the page
after `a/x` is empty, so that `a` and `a-b` are never listed. -/
theorem listObjects_keys_in_walk_order_not_key_order :
    entriesAscending orderTree = true ∧
    Stores "/data".toList "bkt".toList orderTree ["a".toList, "a-b".toList, "a/x".toList] ∧
    listedKeys (listObjects false "/data".toList "bkt".toList orderTree allMetadata {}) =
      ["a/x".toList, "a-b".toList, "a".toList] ∧
    jsLt "a".toList "a-b".toList = true ∧ jsLt "a-b".toList "a/x".toList = true ∧
    listedKeys (listObjects false "/data".toList "bkt".toList orderTree allMetadata
        { maxKeys := some 1 }) = ["a/x".toList] ∧
    (listObjects false "/data".toList "bkt".toList orderTree allMetadata
        { maxKeys := some 1 }).isTruncated = true ∧
    listedKeys (listObjects false "/data".toList "bkt".toList orderTree allMetadata
        { maxKeys := some 1, startAfter := "a/x".toList }) = [] := by
  decide

/-- C10: the common prefix is cut one character after the start of the
delimiter. With the key `a--b`, an empty prefix and delimiter `--`, the loop
records `a-`, which does not end with the delimiter, where `a--` is due. -/
theorem listObjects_common_prefix_stops_inside_delimiter :
    (listLoop false "/data/bkt".toList { delimiter := "--".toList }
        ["/data/bkt/a--b._S3rver_object".toList] {}).commonPrefixes = ["a-".toList] ∧
    indexOf "a--b".toList "--".toList = some 1 ∧
    endsWith "a-".toList "--".toList = false ∧
    slice "a--b".toList 0 ((0 + 1 + "--".toList.length : Nat) : Int) = "a--".toList := by
  decide

/-- C6: a requested `end` of 0 is taken for no `end` at all. For an object of
length 10 and the request `{start: 0, end: 0}` the range is 0..9, where 0..0
is due; the requests of the spec, 5..20 and 20..30, are clamped as stated. -/
theorem getObject_end_zero_is_unbounded :
    getObject (some 10) (List.range 10) (some { start := some 0, end_ := some 0 }) =
      some { content := some (List.range 10), range := some { start := 0, end_ := 9 } } ∧
    getObject (some 10) (List.range 10) (some { start := some 5, end_ := some 20 }) =
      some { content := some (List.range 10), range := some { start := 5, end_ := 9 } } ∧
    getObject (some 10) (List.range 10) (some { start := some 20, end_ := some 30 }) =
      some { content := none, range := some { start := 20, end_ := 9 } } := by
  decide

/-- C7: under the escaping branch a key that holds the marker is not restored.
The key `a&bc` is encoded as itself, and decoding takes `&bc` for an escaped
byte 0xBC, which is not valid UTF-8 on its own: the result is `a` followed by
U+FFFD. -/
theorem decodeKeyPath_encodeKeyPath_marker_key :
    encodeKeyPath true "a&bc".toList = "a&bc".toList ∧
    decodeKeyPath true (encodeKeyPath true "a&bc".toList) = ['a', Char.ofNat 0xFFFD] ∧
    decodeKeyPath true (encodeKeyPath true "a&bc".toList) ≠ "a&bc".toList := by
  decide

/-- C8: a key with a leading `/` makes the cleanup loop remove the bucket
root. The key `/x` splits into an empty directory segment, which `path.join`
drops, so the directory read and removed is the bucket directory itself; the
key `x/y/z` removes `x/y` and `x` only. -/
theorem deleteObject_leading_slash_removes_bucket_root :
    getBucketPath "/data".toList "b".toList = "/data/b".toList ∧
    deleteObject false "/data".toList "b".toList "/x".toList rootKeyFs =
      .ok { dirs := ["/data".toList], files := [] } ∧
    dirExistsAfter (deleteObject false "/data".toList "b".toList "/x".toList rootKeyFs)
      "/data/b".toList = false ∧
    deleteObject false "/data".toList "b".toList "x/y/z".toList deepKeyFs =
      .ok { dirs := ["/data".toList, "/data/b".toList], files := [] } := by
  refine ⟨by decide, by rfl, by decide, by rfl⟩

/-- C5: the size returned for a multipart object is 0, not the sum of the part
sizes. The parts 3, 1, 2 holding `C`, `A`, `B` are put in ascending order, and
the first read of the stream hands `ABC` to the drive; the stream is then at
its end, so the second read, which writes the file and counts the size, sees
no data. -/
theorem putObjectMultipart_size_is_zero (md5 : Bytes → Str) :
    putObjectMultipart md5 false "/data".toList "b".toList stagedUpload
        [{ number := 3 }, { number := 1 }, { number := 2 }] =
      some ("/data/b/k._S3rver_object".toList,
        { driveData := [65, 66, 67], fileData := [], size := 0, md5 := md5 [] }) := by
  rfl

/-- Counterexample to C9: the content file of the key `report` is the directory
that the key `report._S3rver_object/summary` nests under. -/
theorem getResourcePath_file_is_nesting_dir :
    getResourcePath false "/data".toList "bkt".toList "report".toList "object".toList ∈
      ancestorDirs (getResourcePath false "/data".toList "bkt".toList
        "report._S3rver_object/summary".toList "object".toList) := by
  decide

theorem sortBy_sorted (parts : List Part) :
    List.Sorted (fun p q : Part => p.number ≤ q.number) (sortBy parts) := by
  haveI : IsTotal Part (fun p q : Part => p.number ≤ q.number) := ⟨fun p q => Nat.le_total _ _⟩
  haveI : IsTrans Part (fun p q : Part => p.number ≤ q.number) :=
    ⟨fun _ _ _ h1 h2 => Nat.le_trans h1 h2⟩
  exact List.sorted_insertionSort _ parts

theorem sortBy_perm (parts parts2 : List Part) (h : parts2.Perm parts) :
    sortBy parts2 = sortBy parts := by
  haveI : IsAntisymm Part (fun p q : Part => p.number ≤ q.number) :=
    ⟨fun p q h1 h2 => by
      cases p; cases q
      simp only [Part.mk.injEq]
      exact Nat.le_antisymm h1 h2⟩
  apply List.eq_of_perm_of_sorted _ (sortBy_sorted parts2) (sortBy_sorted parts)
  exact ((List.perm_insertionSort _ parts2).trans h).trans (List.perm_insertionSort _ parts).symm

/-- The assembly of a multipart object does not depend on the order in which
the parts are listed: the parts are read in ascending part-number order. -/
theorem putObjectMultipart_perm (md5 : Bytes → Str) (win32 : Bool) (rootDirectory bucket : Str)
    (u : Upload) (parts parts2 : List Part) (h : parts2.Perm parts) :
    putObjectMultipart md5 win32 rootDirectory bucket u parts2 =
      putObjectMultipart md5 win32 rootDirectory bucket u parts := by
  unfold putObjectMultipart
  rw [sortBy_perm parts parts2 h]

/-- What `putObjectMultipart` does with the streams of the sorted parts: their
concatenation goes to the drive, nothing reaches the file, and the size is 0. -/
theorem putObjectMultipart_outcome (md5 : Bytes → Str) (win32 : Bool) (rootDirectory bucket : Str)
    (u : Upload) (parts : List Part) (streams : List Readable)
    (h : openParts u (sortBy parts) = some streams) :
    putObjectMultipart md5 win32 rootDirectory bucket u parts =
      some (getResourcePath win32 rootDirectory bucket u.key "object".toList,
        { driveData := (streams.map (·.unread)).flatten, fileData := [], size := 0,
          md5 := md5 [] }) := by
  unfold putObjectMultipart
  rw [h]
  rfl

/-- A buffer is written whole: `putContent` returns its length. -/
theorem putContent_buffer (md5 : Bytes → Str) (data : Bytes) :
    putContent md5 (.buffer data) =
      { driveData := data, fileData := data, size := data.length, md5 := md5 data } := rfl

/-- For a requested `end` other than 0, `getObject` clamps the end to the last
byte and returns content exactly when the clamped range is not empty. -/
theorem getObject_clamps_nonzero_end (len : Nat) (blob : Bytes) (start stop : Int)
    (hlen : 1 ≤ len) (h0 : 0 ≤ start) (hstop : stop ≠ 0) :
    getObject (some len) blob (some { start := some start, end_ := some stop }) =
      some { content := if start ≤ min stop ((len : Int) - 1) then some blob else none,
             range := some { start := start, end_ := min stop ((len : Int) - 1) } } := by
  have hmax : max (0 : Int) ((len : Int) - 1) = (len : Int) - 1 := by omega
  have hs : rangeStart (some { start := some start, end_ := some stop }) = start := by
    simp only [rangeStart, Option.bind]
    by_cases h : start = 0
    · simp [h]
    · simp [h]
  have he : rangeEnd (some { start := some start, end_ := some stop }) ((len : Int) - 1)
      = min stop ((len : Int) - 1) := by
    simp [rangeEnd, Option.bind, hstop]
  simp only [getObject, hmax, hs, he, rangeRequested, Option.isSome_some, Bool.true_or, if_true]
  by_cases hc : start ≤ min stop ((len : Int) - 1)
  · have h1 : ¬ (start < 0) := by omega
    have h2 : ¬ (min (min stop ((len : Int) - 1)) ((len : Int) - 1) < start) := by omega
    rw [if_pos hc]
    simp only [h1, h2, decide_False, Bool.or_self, Bool.false_eq_true, if_false]
  · have h2 : min (min stop ((len : Int) - 1)) ((len : Int) - 1) < start := by omega
    rw [if_neg hc]
    simp only [h2, decide_True, Bool.or_true, if_true]

theorem indexOf_some_spec (s pat : Str) (i : Nat) (h : indexOf s pat = some i) :
    i ≤ s.length ∧ pat <+: s.drop i := by
  induction s generalizing i with
  | nil =>
    simp only [indexOf] at h
    split at h
    · rename_i hp
      simp only [Option.some.injEq] at h
      subst h
      simp only [List.isEmpty_iff] at hp
      simp [hp]
    · simp at h
  | cons c cs ih =>
    simp only [indexOf] at h
    split at h
    · rename_i hp
      simp only [Option.some.injEq] at h
      subst h
      exact ⟨Nat.zero_le _, by simpa using hp⟩
    · simp only [Option.map_eq_some'] at h
      obtain ⟨j, hj, rfl⟩ := h
      obtain ⟨h1, h2⟩ := ih j hj
      exact ⟨by simp; omega, by simpa using h2⟩

/-- The string the loop records for a grouped key: it starts with the prefix,
is a prefix of the key, and lacks the delimiter but for its first character. -/
theorem commonPrefix_shape (o : ListOptions) (key : Str) (idx : Nat)
    (hpf : startsWith key o.pfx = true) (hidx : delimiterIndex o key = some idx) :
    slice key 0 ((o.pfx.length + idx + 1 : Nat) : Int) = key.take (o.pfx.length + idx + 1) ∧
    o.pfx <+: key.take (o.pfx.length + idx + 1) ∧
    key.take (o.pfx.length + idx + 1) <+: key ∧
    key.take (o.pfx.length + idx + 1) ++ o.delimiter.tail =
      key.take (o.pfx.length + idx + o.delimiter.length) := by
  have hp : o.pfx <+: key := (startsWith_iff _ _).mp hpf
  unfold delimiterIndex at hidx
  rw [sliceFrom_nat] at hidx
  split at hidx
  · rename_i hd
    obtain ⟨hle, hpre⟩ := indexOf_some_spec _ _ _ hidx
    obtain ⟨c, cs, hcs⟩ : ∃ c cs, o.delimiter = c :: cs := by
      cases hdel : o.delimiter with
      | nil => simp [hdel] at hd
      | cons c cs => exact ⟨c, cs, rfl⟩
    obtain ⟨t, ht⟩ := hpre
    have hkey : key = key.take (o.pfx.length + idx) ++ (o.delimiter ++ t) := by
      rw [ht, List.drop_drop, List.take_append_drop]
    have hlen : (key.take (o.pfx.length + idx)).length = o.pfx.length + idx := by
      rw [List.length_take]
      simp only [List.length_drop] at hle
      have := hp.length_le
      omega
    refine ⟨slice_zero_nat _ _, ?_, List.take_prefix _ _, ?_⟩
    · rw [List.prefix_take_iff]
      exact ⟨hp, by omega⟩
    · have e1 : key.take (o.pfx.length + idx + 1) = key.take (o.pfx.length + idx) ++ [c] := by
        conv_lhs => rw [hkey, hcs]
        rw [List.take_append_eq_append_take, hlen]
        simp
      have e2 : key.take (o.pfx.length + idx + o.delimiter.length) =
          key.take (o.pfx.length + idx) ++ o.delimiter := by
        conv_lhs => rw [hkey]
        rw [List.take_append_eq_append_take, hlen]
        simp
      rw [e1, e2, hcs]
      simp
  · simp at hidx

theorem hexDigits_of_reserved (ch : Char) (h : ch ∈ reservedChars) :
    entityAt ('&' :: hexDigit (ch.toNat / 16) :: hexDigit (ch.toNat % 16) :: []) = some [ch] := by
  simp only [reservedChars, List.mem_cons, List.mem_singleton, List.not_mem_nil, or_false] at h
  rcases h with h | h | h | h | h | h | h | h <;> subst h <;> decide

theorem entityAt_append (c a b : Char) (rest : Str) :
    entityAt (c :: a :: b :: rest) = entityAt [c, a, b] := rfl

theorem entityAt_of_ne (c : Char) (rest : Str) (h : c ≠ '&') : entityAt (c :: rest) = none := by
  match rest with
  | [] => rfl
  | [_] => rfl
  | a :: b :: _ => simp [entityAt, h]

/-- Under the escaping branch a key without the marker `&` is restored. -/
theorem decodeKeyPath_encodeKeyPath_of_no_marker (key : Str) (h : '&' ∉ key) :
    decodeKeyPath true (encodeKeyPath true key) = key := by
  simp only [decodeKeyPath, encodeKeyPath, if_true, replaceEntities]
  induction key with
  | nil => rfl
  | cons c cs ih =>
    have hc : c ≠ '&' := fun e => h (by simp [e])
    have hcs : '&' ∉ cs := fun e => h (List.mem_cons_of_mem _ e)
    rw [List.flatMap_cons]
    by_cases hr : c ∈ reservedChars
    · have ih2 := ih hcs
      simp only [escapeChar] at ih2
      simp only [hr, if_true, escapeChar, List.cons_append, List.nil_append]
      rw [replaceFrom, entityAt_append, hexDigits_of_reserved c hr]
      simp only [replaceFrom, List.cons_append, List.nil_append]
      rw [ih2]
    · simp only [hr, if_false, List.cons_append, List.nil_append]
      rw [replaceFrom, entityAt_of_ne c _ hc]
      simp only []
      rw [ih hcs]

/-- Under the non-escaping branch both codec functions are the identity. -/
theorem codec_identity (key : Str) :
    encodeKeyPath false key = key ∧ decodeKeyPath false key = key := ⟨rfl, rfl⟩

/-- The shape of a normalized segment stack: some `..` segments (none unless
they are allowed above the root), then plain segments. -/
theorem normStep_shape (a : Bool) (k : Nat) (plains : List Str) (seg : Str)
    (hp : ∀ s ∈ plains, plainSegment s = true) (hk : a = false → k = 0) :
    ∃ k2 plains2, normStep a (List.replicate k ['.', '.'] ++ plains) seg =
        List.replicate k2 ['.', '.'] ++ plains2 ∧
      (∀ s ∈ plains2, plainSegment s = true) ∧ (a = false → k2 = 0) ∧
      (∀ s ∈ plains2, s ∈ plains ∨ s = seg) := by
  unfold normStep
  by_cases h1 : seg = [] ∨ seg = ['.']
  · rw [if_pos h1]
    exact ⟨k, plains, rfl, hp, hk, fun s hs => Or.inl hs⟩
  · rw [if_neg h1]
    by_cases h2 : seg = ['.', '.']
    · rw [if_pos h2]
      rcases List.eq_nil_or_concat plains with hpl | ⟨ps, l, hpl⟩
      · subst hpl
        have hlast : ¬ (List.replicate k ['.', '.'] ++ [] ≠ [] ∧
            (List.replicate k ['.', '.'] ++ []).getLast? ≠ some ['.', '.']) := by
          rintro ⟨hne, hl⟩
          apply hl
          rw [List.append_nil] at hne ⊢
          cases k with
          | zero => exact absurd rfl hne
          | succ n =>
            rw [List.replicate_succ', List.getLast?_append_of_ne_nil _ (by simp)]
            rfl
        rw [if_neg hlast]
        cases a with
        | true =>
          refine ⟨k + 1, [], ?_, by simp, by simp, by simp⟩
          simp [h2, List.replicate_succ']
        | false =>
          exact ⟨k, [], by simp, by simp, hk, by simp⟩
      · have hpl2 : plains = ps ++ [l] := by simpa using hpl
        subst hpl2
        have hl : plainSegment l = true := hp l (by simp)
        have hlne : l ≠ ['.', '.'] := by
          intro e; rw [e] at hl; exact absurd hl (by decide)
        have hcond : List.replicate k ['.', '.'] ++ (ps ++ [l]) ≠ [] ∧
            (List.replicate k ['.', '.'] ++ (ps ++ [l])).getLast? ≠ some ['.', '.'] := by
          refine ⟨by simp, ?_⟩
          rw [← List.append_assoc, List.getLast?_append_of_ne_nil _ (by simp)]
          simpa using hlne
        rw [if_pos hcond]
        refine ⟨k, ps, ?_, fun s hs => hp s (by simp [hs]), hk,
          fun s hs => Or.inl (by simp [hs])⟩
        rw [← List.append_assoc, List.dropLast_concat]
    · rw [if_neg h2]
      refine ⟨k, plains ++ [seg], by simp, ?_, hk, ?_⟩
      · intro s hs
        rcases List.mem_append.mp hs with h | h
        · exact hp s h
        · simp only [List.mem_singleton] at h
          subst h
          simp only [plainSegment, Bool.not_eq_true', decide_eq_false_iff_not, not_or]
          exact ⟨fun e => h1 (Or.inl e), fun e => h1 (Or.inr e), h2⟩
      · intro s hs
        rcases List.mem_append.mp hs with h | h
        · exact Or.inl h
        · exact Or.inr (by simpa using h)

theorem foldl_normStep_shape (a : Bool) (segs : List Str) :
    ∀ (k : Nat) (plains : List Str), (∀ s ∈ plains, plainSegment s = true) →
      (a = false → k = 0) →
      ∃ k2 plains2, segs.foldl (normStep a) (List.replicate k ['.', '.'] ++ plains) =
          List.replicate k2 ['.', '.'] ++ plains2 ∧
        (∀ s ∈ plains2, plainSegment s = true) ∧ (a = false → k2 = 0) ∧
        (∀ s ∈ plains2, s ∈ plains ∨ s ∈ segs) := by
  induction segs with
  | nil => intro k plains hp hk; exact ⟨k, plains, rfl, hp, hk, fun s hs => Or.inl hs⟩
  | cons seg rest ih =>
    intro k plains hp hk
    obtain ⟨k1, p1, e1, hp1, hk1, hm1⟩ := normStep_shape a k plains seg hp hk
    obtain ⟨k2, p2, e2, hp2, hk2, hm2⟩ := ih k1 p1 hp1 hk1
    refine ⟨k2, p2, ?_, hp2, hk2, ?_⟩
    · rw [List.foldl_cons, e1, e2]
    · intro s hs
      rcases hm2 s hs with h | h
      · rcases hm1 s h with h3 | h3
        · exact Or.inl h3
        · exact Or.inr (by simp [h3])
      · exact Or.inr (List.mem_cons_of_mem _ h)

theorem foldl_normStep_dots (k : Nat) :
    ∀ i : Nat, (List.replicate k ['.', '.']).foldl (normStep true) (List.replicate i ['.', '.'])
      = List.replicate (i + k) ['.', '.'] := by
  induction k with
  | zero => intro i; rfl
  | succ n ih =>
    intro i
    rw [List.replicate_succ, List.foldl_cons]
    have hstep : normStep true (List.replicate i ['.', '.']) ['.', '.'] =
        List.replicate (i + 1) ['.', '.'] := by
      obtain ⟨k2, p2, e, _, _, _⟩ := normStep_shape true i [] ['.', '.'] (by simp) (by simp)
      unfold normStep
      rw [if_neg (by decide), if_pos rfl]
      have hlast : ¬ (List.replicate i ['.', '.'] ≠ [] ∧
          (List.replicate i ['.', '.']).getLast? ≠ some ['.', '.']) := by
        rintro ⟨hne, hl⟩
        apply hl
        cases i with
        | zero => exact absurd rfl hne
        | succ m =>
          rw [List.replicate_succ', List.getLast?_append_of_ne_nil _ (by simp)]
          rfl
      rw [if_neg hlast]
      simp [List.replicate_succ']
    rw [hstep, ih (i + 1)]
    congr 1
    omega

theorem foldl_normStep_idem (a : Bool) (k : Nat) (plains : List Str)
    (hp : ∀ s ∈ plains, plainSegment s = true) (hk : a = false → k = 0) :
    (List.replicate k ['.', '.'] ++ plains).foldl (normStep a) [] =
      List.replicate k ['.', '.'] ++ plains := by
  rw [List.foldl_append]
  cases a with
  | false =>
    rw [hk rfl]
    simpa using foldl_normStep_plain false plains hp []
  | true =>
    have := foldl_normStep_dots k 0
    simp only [List.replicate_zero, Nat.zero_add] at this
    rw [this, foldl_normStep_plain true plains hp]

theorem plainSegment_head (s : Str) (h : plainSegment s = true) (hs : '/' ∉ s) :
    s.head? ≠ some '/' := by
  intro e
  cases s with
  | nil => simp at e
  | cons c cs =>
    simp only [List.head?_cons, Option.some.injEq] at e
    exact hs (by simp [e])

/-- Joining below the bucket path appends the segments: `path.join` leaves a
normalized bucket path and plain segments as they are. -/
theorem pathJoin_bucketPath (root bucket : Str) (segs : List Str) (hB : ProperBase root bucket)
    (hne : segs ≠ []) (hplain : ∀ seg ∈ segs, plainSegment seg = true)
    (hslash : ∀ seg ∈ segs, '/' ∉ seg) :
    pathJoin (getBucketPath root bucket :: segs) =
      getBucketPath root bucket ++ '/' :: joinSlash segs := by
  obtain ⟨hj, ht, hBeq, hstack⟩ := properBase_shape root bucket hB
  generalize hjdef : joinSlash ([root, bucket].filter (fun a => !a.isEmpty)) = j at hj ht hBeq hstack
  -- the shape of the normalized bucket path
  obtain ⟨k, plains, hshape, hpl, hk0, hmem⟩ :=
    foldl_normStep_shape (!decide (j.head? = some '/')) (splitSlash j) 0 [] (by simp) (by simp)
  simp only [List.replicate_zero, List.nil_append] at hshape
  have hstackeq : normalizeSegs (!decide (j.head? = some '/')) j =
      List.replicate k ['.', '.'] ++ plains := hshape
  rw [hstackeq] at hBeq hstack
  have hnoslash : ∀ s ∈ List.replicate k ['.', '.'] ++ plains, '/' ∉ s := by
    intro s hs
    rcases List.mem_append.mp hs with h | h
    · rw [List.eq_of_mem_replicate h]; decide
    · rcases hmem s h with h2 | h2
      · simp at h2
      · exact splitSlash_no_slash j s h2
  have hnonempty : ∀ s ∈ List.replicate k ['.', '.'] ++ plains, s ≠ [] := by
    intro s hs
    rcases List.mem_append.mp hs with h | h
    · rw [List.eq_of_mem_replicate h]; simp
    · intro e
      have := hpl s h
      rw [e] at this
      exact absurd this (by decide)
  -- the bucket path is its own normal form
  have hBne : getBucketPath root bucket ≠ [] := by
    rw [hBeq]
    intro e
    have e2 := (List.append_eq_nil.mp e).2
    cases hst : List.replicate k ['.', '.'] ++ plains with
    | nil => exact hstack hst
    | cons s ss =>
      rw [hst] at e2
      exact joinSlash_ne_nil s ss (hnonempty s (by rw [hst]; simp)) e2
  have hjs : joinSlash (List.replicate k ['.', '.'] ++ plains) ≠ [] := by
    cases hst : List.replicate k ['.', '.'] ++ plains with
    | nil => exact absurd hst hstack
    | cons s ss => exact joinSlash_ne_nil s ss (hnonempty s (by rw [hst]; simp))
  have hhead : (getBucketPath root bucket).head? = some '/' ↔ j.head? = some '/' := by
    rw [hBeq]
    by_cases ha : j.head? = some '/'
    · simp [ha]
    · simp only [ha, if_false, List.nil_append, iff_false]
      cases hst : List.replicate k ['.', '.'] ++ plains with
      | nil => exact absurd hst hstack
      | cons s ss =>
        have hs0 := hnonempty s (by rw [hst]; simp)
        have hs1 := hnoslash s (by rw [hst]; simp)
        cases s with
        | nil => exact absurd rfl hs0
        | cons c cs =>
          have hc : c ≠ '/' := fun e => hs1 (by simp [e])
          cases ss with
          | nil => simpa [joinSlash] using hc
          | cons t ts => simpa [joinSlash] using hc
  have hsplit : ∀ a, normalizeSegs a (getBucketPath root bucket) =
      (List.replicate k ['.', '.'] ++ plains).foldl (normStep a) [] := by
    intro a
    unfold normalizeSegs
    rw [hBeq]
    by_cases ha : j.head? = some '/'
    · simp only [ha, if_true, List.singleton_append]
      rw [splitSlash_cons, if_pos rfl, splitSlash_joinSlash _ hstack hnoslash, List.foldl_cons]
      rfl
    · simp only [ha, if_false, List.nil_append]
      rw [splitSlash_joinSlash _ hstack hnoslash]
  have hnonemptysegs : ∀ seg ∈ segs, seg ≠ [] := by
    intro seg hs he
    have := hplain seg hs
    simp [plainSegment, he] at this
  have hfilter : (getBucketPath root bucket :: segs).filter (fun a => !a.isEmpty) =
      getBucketPath root bucket :: segs := by
    rw [List.filter_eq_self]
    intro seg hs
    rcases List.mem_cons.mp hs with h | h
    · rw [h]
      cases hb : getBucketPath root bucket with
      | nil => exact absurd hb hBne
      | cons c cs => rfl
    · have := hnonemptysegs seg h
      cases seg with
      | nil => exact absurd rfl this
      | cons c cs => rfl
  unfold pathJoin
  simp only []
  rw [hfilter, joinSlash_cons_of_ne_nil _ _ hne]
  have hjs2 : joinSlash segs ≠ [] := by
    cases segs with
    | nil => exact absurd rfl hne
    | cons s ss => exact joinSlash_ne_nil s ss (hnonemptysegs s (by simp))
  have hne2 : getBucketPath root bucket ++ '/' :: joinSlash segs ≠ [] := by simp
  have hhead2 : (getBucketPath root bucket ++ '/' :: joinSlash segs).head? =
      (getBucketPath root bucket).head? := by
    cases hb : getBucketPath root bucket with
    | nil => exact absurd hb hBne
    | cons c cs => rfl
  have hlast : (getBucketPath root bucket ++ '/' :: joinSlash segs).getLast? ≠ some '/' := by
    have e : getBucketPath root bucket ++ '/' :: joinSlash segs =
        (getBucketPath root bucket ++ ['/']) ++ joinSlash segs := by simp
    rw [e, List.getLast?_append_of_ne_nil _ hjs2]
    exact joinSlash_getLast segs hne (fun seg hs => ⟨hnonemptysegs seg hs, hslash seg hs⟩)
  have hdec : decide ((getBucketPath root bucket).head? = some '/') =
      decide (j.head? = some '/') := by
    apply Bool.decide_congr; exact hhead
  have hsegs : normalizeSegs (!decide ((getBucketPath root bucket).head? = some '/'))
      (getBucketPath root bucket ++ '/' :: joinSlash segs) =
      (List.replicate k ['.', '.'] ++ plains) ++ segs := by
    have h1 : normalizeSegs (!decide ((getBucketPath root bucket).head? = some '/'))
        (getBucketPath root bucket ++ '/' :: joinSlash segs) =
        segs.foldl (normStep (!decide ((getBucketPath root bucket).head? = some '/')))
          (normalizeSegs (!decide ((getBucketPath root bucket).head? = some '/'))
            (getBucketPath root bucket)) := by
      unfold normalizeSegs
      rw [splitSlash_append_slash, List.foldl_append, splitSlash_joinSlash segs hne hslash]
    rw [h1, hsplit, hdec, foldl_normStep_idem _ k plains hpl hk0, foldl_normStep_plain _ segs hplain]
  simp only [hne2, if_false]
  unfold posixNormalize
  simp only [hne2, if_false, hhead2, hlast, hsegs]
  rw [joinSlash_append _ segs hstack hne]
  have hbody : joinSlash (List.replicate k ['.', '.'] ++ plains) ++ '/' :: joinSlash segs ≠ [] := by
    simp
  simp only [hbody, if_false, List.append_nil]
  have hif : (if (getBucketPath root bucket).head? = some '/' then ['/'] else ([] : Str)) =
      (if j.head? = some '/' then ['/'] else []) := by
    by_cases ha : j.head? = some '/'
    · rw [if_pos ha, if_pos (hhead.mpr ha)]
    · rw [if_neg ha, if_neg (fun h => ha (hhead.mp h))]
  rw [hif]
  conv_rhs => rw [hBeq]
  simp

theorem unlinkTolerant_dirs (fs fs2 : FileSystem) (p : Str)
    (h : unlinkTolerant fs p = .ok fs2) : fs2.dirs = fs.dirs := by
  unfold unlinkTolerant unlink at h
  by_cases h1 : p ∈ fs.files
  · simp only [h1, if_true] at h
    injection h with h
    rw [← h]
  · by_cases h2 : p ∈ fs.dirs
    · simp [h1, h2] at h
    · simp only [h1, h2, if_false] at h
      injection h with h
      rw [← h]

theorem rmdir_dirs (fs fs2 : FileSystem) (d : Str) (h : rmdir fs d = .ok fs2) :
    fs2.dirs = fs.dirs.filter (· ≠ d) := by
  unfold rmdir at h
  split at h
  · split at h
    · injection h with h
      rw [← h]
    · exact absurd h (by simp)
  · exact absurd h (by simp)

theorem cleanupLoop_removes_below (root bucket : Str) (hB : ProperBase root bucket)
    (revParts : List Str) :
    (∀ seg ∈ revParts, plainSegment seg = true) → (∀ seg ∈ revParts, '/' ∉ seg) →
    ∀ fs fs2 : FileSystem, cleanupLoop (getBucketPath root bucket) revParts fs = .ok fs2 →
      ∀ d ∈ fs.dirs, d ∉ fs2.dirs → (getBucketPath root bucket ++ ['/']) <+: d := by
  induction revParts with
  | nil =>
    intro _ _ fs fs2 h d hd hnd
    simp only [cleanupLoop] at h
    injection h with h
    rw [← h] at hnd
    exact absurd hd hnd
  | cons part rest ih =>
    intro hp hs fs fs2 h d hd hnd
    have hdir : pathJoin (getBucketPath root bucket :: (part :: rest).reverse) =
        getBucketPath root bucket ++ '/' :: joinSlash (part :: rest).reverse :=
      pathJoin_bucketPath root bucket _ hB (by simp)
        (fun seg hseg => hp seg (List.mem_reverse.mp hseg))
        (fun seg hseg => hs seg (List.mem_reverse.mp hseg))
    simp only [cleanupLoop] at h
    rw [hdir] at h
    split at h
    · exact absurd h (by simp)
    · split at h
      · split at h
        · exact absurd h (by simp)
        · rename_i fs1 hrm
          have hdirs := rmdir_dirs _ _ _ hrm
          by_cases hd1 : d ∈ fs1.dirs
          · exact ih (fun seg hseg => hp seg (List.mem_cons_of_mem _ hseg))
              (fun seg hseg => hs seg (List.mem_cons_of_mem _ hseg)) fs1 fs2 h d hd1 hnd
          · rw [hdirs, List.mem_filter] at hd1
            have : d = getBucketPath root bucket ++ '/' :: joinSlash (part :: rest).reverse := by
              by_contra hne
              exact hd1 ⟨hd, by simpa using hne⟩
            rw [this]
            exact ⟨joinSlash (part :: rest).reverse, by simp⟩
      · injection h with h
        rw [← h] at hnd
        exact absurd hd hnd

/-- For a key whose directory segments are plain, `deleteObject` removes only
directories strictly below the bucket directory, which itself stays. -/
theorem deleteObject_keeps_bucket_root (win32 : Bool) (rootDirectory bucket key : Str)
    (fs fs2 : FileSystem) (hbase : ProperBase rootDirectory bucket)
    (hkey : ∀ seg ∈ (splitSlash key).dropLast, plainSegment seg = true)
    (hdel : deleteObject win32 rootDirectory bucket key fs = .ok fs2) :
    (∀ d ∈ fs.dirs, d ∉ fs2.dirs → (getBucketPath rootDirectory bucket ++ ['/']) <+: d) ∧
    (getBucketPath rootDirectory bucket ∈ fs.dirs →
      getBucketPath rootDirectory bucket ∈ fs2.dirs) := by
  have hmain : ∀ d ∈ fs.dirs, d ∉ fs2.dirs →
      (getBucketPath rootDirectory bucket ++ ['/']) <+: d := by
    unfold deleteObject at hdel
    split at hdel
    · exact absurd hdel (by simp)
    · rename_i fs1 h1
      split at hdel
      · exact absurd hdel (by simp)
      · rename_i fs3 h2
        split at hdel
        · exact absurd hdel (by simp)
        · rename_i fs4 h3
          have e : fs4.dirs = fs.dirs := by
            rw [unlinkTolerant_dirs _ _ _ h3, unlinkTolerant_dirs _ _ _ h2,
              unlinkTolerant_dirs _ _ _ h1]
          intro d hd hnd
          refine cleanupLoop_removes_below rootDirectory bucket hbase _ ?_ ?_ fs4 fs2 hdel d
            (by rw [e]; exact hd) hnd
          · intro seg hseg
            exact hkey seg (List.mem_reverse.mp hseg)
          · intro seg hseg
            exact splitSlash_no_slash key seg (List.mem_of_mem_dropLast (List.mem_reverse.mp hseg))
  refine ⟨hmain, ?_⟩
  intro hin
  by_contra hout
  have hpre := hmain _ hin hout
  have := hpre.length_le
  simp at this

/-- The listing examples of the spec: `startAfter` is exclusive, and `maxKeys`
cuts the listing and sets the truncation flag. -/
theorem listObjects_spec_examples :
    listedKeys (listObjects false "/data".toList "bkt".toList flatTree allMetadata
        { startAfter := "k1".toList }) = ["k2".toList, "k3".toList, "n/x".toList] ∧
    listedKeys (listObjects false "/data".toList "bkt".toList flatTree allMetadata
        { startAfter := "n/x".toList }) = [] ∧
    listedKeys (listObjects false "/data".toList "bkt".toList abcTree allMetadata
        { maxKeys := some 2 }) = ["a".toList, "b".toList] ∧
    (listObjects false "/data".toList "bkt".toList abcTree allMetadata
        { maxKeys := some 2 }).isTruncated = true ∧
    listedKeys (listObjects false "/data".toList "bkt".toList abcTree allMetadata
        { maxKeys := some 3 }) = ["a".toList, "b".toList, "c".toList] ∧
    (listObjects false "/data".toList "bkt".toList abcTree allMetadata
        { maxKeys := some 3 }).isTruncated = false := by
  decide

theorem normStep_take (a : Bool) (s0 : List Str) (m : Nat) (t : List Str) (seg : Str)
    (hm : m ≤ s0.length) :
    ∃ m2 t2, normStep a (s0.take m ++ t) seg = s0.take m2 ++ t2 ∧ m2 ≤ s0.length ∧
      (∀ x ∈ t2, x ∈ t ∨ x = seg) := by
  unfold normStep
  split
  · exact ⟨m, t, rfl, hm, fun x hx => Or.inl hx⟩
  · split
    · split
      · rcases List.eq_nil_or_concat t with ht | ⟨t0, l, ht⟩
        · subst ht
          refine ⟨m - 1, [], ?_, by omega, by simp⟩
          rw [List.append_nil, List.append_nil, List.dropLast_eq_take, List.take_take,
            List.length_take]
          congr 1
          omega
        · have ht2 : t = t0 ++ [l] := by simpa using ht
          subst ht2
          refine ⟨m, t0, ?_, hm, fun x hx => Or.inl (by simp [hx])⟩
          rw [← List.append_assoc, List.dropLast_concat]
      · split
        · refine ⟨m, t ++ [seg], by simp, hm, ?_⟩
          intro x hx
          rcases List.mem_append.mp hx with h | h
          · exact Or.inl h
          · exact Or.inr (by simpa using h)
        · exact ⟨m, t, rfl, hm, fun x hx => Or.inl hx⟩
    · refine ⟨m, t ++ [seg], by simp, hm, ?_⟩
      intro x hx
      rcases List.mem_append.mp hx with h | h
      · exact Or.inl h
      · exact Or.inr (by simpa using h)

/-- Normalizing further segments on top of a stack keeps an initial part of
the stack and adds only segments that were given. -/
theorem foldl_normStep_take (a : Bool) (s0 : List Str) (segs : List Str) :
    ∀ (m : Nat) (t : List Str), m ≤ s0.length →
      ∃ m2 t2, segs.foldl (normStep a) (s0.take m ++ t) = s0.take m2 ++ t2 ∧
        m2 ≤ s0.length ∧ (∀ x ∈ t2, x ∈ t ∨ x ∈ segs) := by
  induction segs with
  | nil => intro m t hm; exact ⟨m, t, rfl, hm, fun x hx => Or.inl hx⟩
  | cons seg rest ih =>
    intro m t hm
    obtain ⟨m1, t1, e1, hm1, hx1⟩ := normStep_take a s0 m t seg hm
    obtain ⟨m2, t2, e2, hm2, hx2⟩ := ih m1 t1 hm1
    refine ⟨m2, t2, by rw [List.foldl_cons, e1, e2], hm2, ?_⟩
    intro x hx
    rcases hx2 x hx with h | h
    · rcases hx1 x h with h3 | h3
      · exact Or.inl h3
      · exact Or.inr (by simp [h3])
    · exact Or.inr (List.mem_cons_of_mem _ h)

theorem formatSuffix_plain (l resource : Str) : plainSegment (formatSuffix l resource) = true := by
  have hlen : 9 ≤ (formatSuffix l resource).length := by
    simp [formatSuffix]; omega
  simp only [plainSegment, Bool.not_eq_true', decide_eq_false_iff_not, not_or]
  refine ⟨?_, ?_, ?_⟩ <;> intro h <;> rw [h] at hlen <;> simp at hlen

theorem formatSuffix_no_slash (l resource : Str) (hl : '/' ∉ l) (hres : '/' ∉ resource) :
    '/' ∉ formatSuffix l resource := by
  simp only [formatSuffix, List.mem_append, not_or]
  exact ⟨⟨hl, by decide⟩, hres⟩

theorem resource_no_slash (r : Str) (h : r ∈ objectResources) : '/' ∉ r := by
  simp only [objectResources, List.mem_cons, List.mem_singleton, List.not_mem_nil, or_false] at h
  rcases h with h | h | h <;> subst h <;> decide

/-- The segments of any resource path: an initial part of the segments of the
bucket path, then directory segments of the key, then the file name. -/
theorem getResourcePath_segments (win32 : Bool) (root bucket key resource : Str)
    (hB : ProperBase root bucket) (hres : '/' ∉ resource) :
    ∃ (absolute : Str) (stack : List Str) (m : Nat) (t : List Str),
      stack ≠ [] ∧ (∀ s ∈ stack, '/' ∉ s) ∧
      getBucketPath root bucket = absolute ++ joinSlash stack ∧
      getResourcePath win32 root bucket key resource =
        absolute ++ joinSlash (stack.take m ++ t ++
          [formatSuffix ((keyParts win32 key).getLastD []) resource]) ∧
      m ≤ stack.length ∧ (∀ x ∈ t, x ∈ (keyParts win32 key).dropLast) := by
  obtain ⟨hj, ht, hBeq, hstack⟩ := properBase_shape root bucket hB
  generalize hjdef : joinSlash ([root, bucket].filter (fun a => !a.isEmpty)) = j
    at hj ht hBeq hstack
  obtain ⟨k, plains, hshape, hpl, _, hmem⟩ :=
    foldl_normStep_shape (!decide (j.head? = some '/')) (splitSlash j) 0 [] (by simp) (by simp)
  simp only [List.replicate_zero, List.nil_append] at hshape
  have hstacknoslash : ∀ s ∈ normalizeSegs (!decide (j.head? = some '/')) j, '/' ∉ s := by
    intro s hs
    unfold normalizeSegs at hs
    rw [hshape] at hs
    rcases List.mem_append.mp hs with h | h
    · rw [List.eq_of_mem_replicate h]; decide
    · rcases hmem s h with h2 | h2
      · simp at h2
      · exact splitSlash_no_slash j s h2
  -- the arguments of the join
  have hpartsno := splitSlash_no_slash (encodeKeyPath win32 key)
  have hpartsne := splitSlash_ne_nil (encodeKeyPath win32 key)
  unfold getResourcePath keyParts
  simp only []
  generalize splitSlash (encodeKeyPath win32 key) = parts at hpartsno hpartsne
  set suf := formatSuffix (parts.getLastD []) resource with hsufdef
  have hlastno : '/' ∉ parts.getLastD [] := by
    rcases List.eq_nil_or_concat parts with h | ⟨ds, l, h⟩
    · exact absurd h hpartsne
    · have h2 : parts = ds ++ [l] := by simpa using h
      rw [h2]
      have hl : (ds ++ [l]).getLastD [] = l := by simp [List.getLastD_eq_getLast?]
      rw [hl]
      exact hpartsno l (by rw [h2]; simp)
  have hsufplain : plainSegment suf = true := formatSuffix_plain _ _
  have hsufno : '/' ∉ suf := formatSuffix_no_slash _ _ hlastno hres
  have hsufne : suf ≠ [] := by
    intro e; rw [e] at hsufplain; exact absurd hsufplain (by decide)
  have hdirsno : ∀ s ∈ parts.dropLast, '/' ∉ s :=
    fun s hs => hpartsno s (List.mem_of_mem_dropLast hs)
  set dirs := parts.dropLast.filter (fun a => !a.isEmpty) with hdirsdef
  have hdirs_sub : ∀ s ∈ dirs, s ∈ parts.dropLast := fun s hs => (List.mem_filter.mp hs).1
  have hdirs_ne : ∀ s ∈ dirs, s ≠ [] := by
    intro s hs e
    have := (List.mem_filter.mp hs).2
    rw [e] at this
    simp at this
  have hfilter : ([root, bucket] ++ parts.dropLast ++ [suf]).filter (fun a => !a.isEmpty) =
      [root, bucket].filter (fun a => !a.isEmpty) ++ (dirs ++ [suf]) := by
    rw [List.filter_append, List.filter_append, List.append_assoc]
    congr 2
    rw [List.filter_cons_of_pos]
    · rfl
    · cases hs : suf with
      | nil => exact absurd hs hsufne
      | cons c cs => rfl
  have hbase : [root, bucket].filter (fun a => !a.isEmpty) ≠ [] := by
    intro h; rw [h] at hjdef; exact hj hjdef.symm
  have hsegsne : dirs ++ [suf] ≠ [] := by simp
  have hsegsno : ∀ s ∈ dirs ++ [suf], '/' ∉ s := by
    intro s hs
    rcases List.mem_append.mp hs with h | h
    · exact hdirsno s (hdirs_sub s h)
    · simp only [List.mem_singleton] at h; rw [h]; exact hsufno
  have hsegsnonempty : ∀ s ∈ dirs ++ [suf], s ≠ [] ∧ '/' ∉ s := by
    intro s hs
    refine ⟨?_, hsegsno s hs⟩
    rcases List.mem_append.mp hs with h | h
    · exact hdirs_ne s h
    · simp only [List.mem_singleton] at h; rw [h]; exact hsufne
  unfold pathJoin
  simp only []
  rw [hfilter, joinSlash_append _ _ hbase hsegsne, hjdef]
  have hjs : joinSlash (dirs ++ [suf]) ≠ [] := by
    cases hd : dirs ++ [suf] with
    | nil => exact absurd hd hsegsne
    | cons s ss => exact joinSlash_ne_nil s ss (hsegsnonempty s (by rw [hd]; simp)).1
  have hne2 : j ++ '/' :: joinSlash (dirs ++ [suf]) ≠ [] := by simp
  have hhead : (j ++ '/' :: joinSlash (dirs ++ [suf])).head? = j.head? := by
    cases j with
    | nil => exact absurd rfl hj
    | cons c cs => rfl
  have hlast : (j ++ '/' :: joinSlash (dirs ++ [suf])).getLast? ≠ some '/' := by
    have e : j ++ '/' :: joinSlash (dirs ++ [suf]) = (j ++ ['/']) ++ joinSlash (dirs ++ [suf]) := by
      simp
    rw [e, List.getLast?_append_of_ne_nil _ hjs]
    exact joinSlash_getLast _ hsegsne hsegsnonempty
  obtain ⟨m, t, hfold, hm, ht2⟩ := foldl_normStep_take (!decide (j.head? = some '/'))
    (normalizeSegs (!decide (j.head? = some '/')) j) dirs
    (normalizeSegs (!decide (j.head? = some '/')) j).length [] (le_refl _)
  rw [List.take_length, List.append_nil] at hfold
  have hsegs : normalizeSegs (!decide (j.head? = some '/')) (j ++ '/' :: joinSlash (dirs ++ [suf]))
      = (normalizeSegs (!decide (j.head? = some '/')) j).take m ++ t ++ [suf] := by
    have h1 : normalizeSegs (!decide (j.head? = some '/'))
        (j ++ '/' :: joinSlash (dirs ++ [suf])) =
        (dirs ++ [suf]).foldl (normStep (!decide (j.head? = some '/')))
          (normalizeSegs (!decide (j.head? = some '/')) j) := by
      unfold normalizeSegs
      rw [splitSlash_append_slash, List.foldl_append,
        splitSlash_joinSlash _ hsegsne hsegsno]
    rw [h1, List.foldl_append, hfold, List.foldl_cons, List.foldl_nil,
      normStep_plain _ _ _ hsufplain]
  refine ⟨if j.head? = some '/' then ['/'] else [],
    normalizeSegs (!decide (j.head? = some '/')) j, m, t, hstack, hstacknoslash, hBeq, ?_, hm, ?_⟩
  · simp only [hne2, if_false]
    unfold posixNormalize
    simp only [hne2, if_false, hhead, hlast, hsegs]
    have hbody : joinSlash ((normalizeSegs (!decide (j.head? = some '/')) j).take m ++ t ++ [suf])
        ≠ [] := by
      intro e
      have h3 := congrArg splitSlash e
      rw [splitSlash_joinSlash _ (by simp)] at h3
      · have h4 := congrArg List.getLast? h3
        simp [splitSlash] at h4
        exact hsufne h4
      · intro s hs
        rcases List.mem_append.mp hs with h | h
        · rcases List.mem_append.mp h with h5 | h5
          · exact hstacknoslash s (List.mem_of_mem_take h5)
          · rcases ht2 s h5 with h6 | h6
            · simp at h6
            · exact hdirsno s (hdirs_sub s h6)
        · simp only [List.mem_singleton] at h; rw [h]; exact hsufno
    simp only [hbody, if_false, List.append_nil]
  · intro x hx
    rcases ht2 x hx with h | h
    · simp at h
    · exact hdirs_sub x h

/-- C9 (amended): when the segments of `k1` are plain and the bucket path can
be extended, the file backing `k1` is none of the directories that the files
of any key `k2` nest under, provided no directory segment of `k2` ends in the
marker `._S3rver_` followed by the resource kind of that file. -/
theorem getResourcePath_file_not_nesting_dir (win32 : Bool)
    (rootDirectory bucket k1 k2 r1 r2 : Str)
    (hbase : ProperBase rootDirectory bucket)
    (hk1 : ∀ seg ∈ keyParts win32 k1, plainSegment seg = true)
    (hr1 : r1 ∈ objectResources) (hr2 : r2 ∈ objectResources)
    (hmarker : ∀ seg ∈ (keyParts win32 k2).dropLast, endsWith seg (formatSuffix [] r1) = false) :
    getResourcePath win32 rootDirectory bucket k1 r1 ∉
      ancestorDirs (getResourcePath win32 rootDirectory bucket k2 r2) := by
  have hs1 := resource_no_slash r1 hr1
  have hs2 := resource_no_slash r2 hr2
  obtain ⟨absolute, stack, m, t, hstack, hstackno, hBeq, hP2, hm, ht⟩ :=
    getResourcePath_segments win32 rootDirectory bucket k2 r2 hbase hs2
  -- the file of `k1`, segment by segment
  have hne1 := splitSlash_ne_nil (encodeKeyPath win32 k1)
  have hjoin1 := joinSlash_splitSlash (encodeKeyPath win32 k1)
  have hno1 := splitSlash_no_slash (encodeKeyPath win32 k1)
  obtain ⟨ds, l, hparts⟩ : ∃ ds l, splitSlash (encodeKeyPath win32 k1) = ds ++ [l] := by
    rcases List.eq_nil_or_concat (splitSlash (encodeKeyPath win32 k1)) with h | ⟨ds, l, h⟩
    · exact absurd h hne1
    · exact ⟨ds, l, by simpa using h⟩
  have hF : getResourcePath win32 rootDirectory bucket k1 r1 =
      absolute ++ joinSlash (stack ++ (ds ++ [l ++ formatSuffix [] r1])) := by
    rw [getResourcePath_eq win32 rootDirectory bucket k1 r1 hbase hk1 hs1, hBeq,
      joinSlash_append stack _ hstack (by simp), joinSlash_concat_append, ← hparts, hjoin1]
    simp
  have hsuf1no : '/' ∉ l ++ formatSuffix [] r1 := by
    rw [List.mem_append, not_or]
    exact ⟨hno1 l (by rw [hparts]; simp), formatSuffix_no_slash [] r1 (by simp) hs1⟩
  have hS1no : ∀ s ∈ stack ++ (ds ++ [l ++ formatSuffix [] r1]), '/' ∉ s := by
    intro s hs
    rcases List.mem_append.mp hs with h | h
    · exact hstackno s h
    · rcases List.mem_append.mp h with h2 | h2
      · exact hno1 s (by rw [hparts]; simp [h2])
      · simp only [List.mem_singleton] at h2; rw [h2]; exact hsuf1no
  have hlast2no : '/' ∉ formatSuffix ((keyParts win32 k2).getLastD []) r2 := by
    apply formatSuffix_no_slash _ _ _ hs2
    have hne2 := splitSlash_ne_nil (encodeKeyPath win32 k2)
    have hno2 := splitSlash_no_slash (encodeKeyPath win32 k2)
    unfold keyParts
    rcases List.eq_nil_or_concat (splitSlash (encodeKeyPath win32 k2)) with h | ⟨ds2, l2, h⟩
    · exact absurd h hne2
    · have h2 : splitSlash (encodeKeyPath win32 k2) = ds2 ++ [l2] := by simpa using h
      have hl : (ds2 ++ [l2]).getLastD [] = l2 := by simp [List.getLastD_eq_getLast?]
      rw [h2, hl]
      exact hno2 l2 (by rw [h2]; simp)
  have hS2no : ∀ s ∈ stack.take m ++ t ++
      [formatSuffix ((keyParts win32 k2).getLastD []) r2], '/' ∉ s := by
    intro s hs
    rcases List.mem_append.mp hs with h | h
    · rcases List.mem_append.mp h with h2 | h2
      · exact hstackno s (List.mem_of_mem_take h2)
      · exact splitSlash_no_slash _ s (List.mem_of_mem_dropLast (ht s h2))
    · simp only [List.mem_singleton] at h; rw [h]; exact hlast2no
  rw [mem_ancestorDirs, hP2, hF]
  rintro ⟨rest, hrest⟩
  have h1 : joinSlash (stack.take m ++ t ++ [formatSuffix ((keyParts win32 k2).getLastD []) r2])
      = joinSlash (stack ++ (ds ++ [l ++ formatSuffix [] r1])) ++ '/' :: rest := by
    have := List.append_cancel_left (by simpa using hrest :
      absolute ++ joinSlash (stack.take m ++ t ++
        [formatSuffix ((keyParts win32 k2).getLastD []) r2]) =
      absolute ++ (joinSlash (stack ++ (ds ++ [l ++ formatSuffix [] r1])) ++ '/' :: rest))
    exact this
  have h2 := congrArg splitSlash h1
  rw [splitSlash_append_slash, splitSlash_joinSlash _ (by simp) hS2no,
    splitSlash_joinSlash _ (by simp) hS1no] at h2
  -- the segments after the file of `k1` are not empty
  rcases List.eq_nil_or_concat (splitSlash rest) with hr | ⟨r0, rl, hr⟩
  · exact absurd hr (splitSlash_ne_nil rest)
  · have hr2 : splitSlash rest = r0 ++ [rl] := by simpa using hr
    rw [hr2, ← List.append_assoc, ← List.append_assoc] at h2
    have h3 := List.append_inj_left' h2 rfl
    rw [List.append_assoc stack ds] at h3
    rcases List.append_eq_append_iff.mp h3 with ⟨a, ha1, ha2⟩ | ⟨c, hc1, _⟩
    · have hlen := congrArg List.length ha1
      simp only [List.length_append, List.length_take, List.length_cons, List.length_nil] at hlen
      have hane : a ≠ [] := by
        intro e
        rw [e] at hlen
        simp only [List.length_nil] at hlen
        omega
      have hmem : l ++ formatSuffix [] r1 ∈ a := by
        have h4 := congrArg List.getLast? ha1
        rw [List.getLast?_append_of_ne_nil _ hane, ← List.append_assoc,
          List.getLast?_append_of_ne_nil _ (by simp)] at h4
        simp only [List.getLast?_singleton] at h4
        exact List.mem_of_getLast?_eq_some h4.symm
      have hmemt : l ++ formatSuffix [] r1 ∈ t := by
        rw [ha2]; exact List.mem_append_left _ hmem
      have := hmarker _ (ht _ hmemt)
      rw [← Bool.not_eq_true, endsWith_iff] at this
      exact this ⟨l, rfl⟩
    · have hl1 := congrArg List.length hc1
      simp only [List.length_append, List.length_take, List.length_cons, List.length_nil] at hl1
      omega

/-- Witness of C9 (amended): the keys `report` and `report/summary`. -/
theorem getResourcePath_file_not_nesting_dir_witness :
    getResourcePath false "/data".toList "bkt".toList "report".toList "object".toList ∉
      ancestorDirs (getResourcePath false "/data".toList "bkt".toList
        "report/summary".toList "metadata.json".toList) :=
  getResourcePath_file_not_nesting_dir false "/data".toList "bkt".toList "report".toList
    "report/summary".toList "object".toList "metadata.json".toList
    (by decide) (by decide) (by decide) (by decide) (by decide)

end S3rver
